import Mathlib

/-!
Verification of the VIFF runtime (`viff/runtime.py`) against its
natural-language specification.

The development shallowly embeds the runtime's data model and operations:

* the program counter is a `List Nat` (the Python list of ints);
* stateful methods become explicit state-passing functions; Python
  exceptions (`raise` inside a `try`/`finally`) are `Except` values;
* field elements of the large prime field `GF(p)` are `ZMod p`; shares are
  embedded at the ideal-functionality level, i.e. a deferred share is
  represented by the field value it resolves to, and `open` is the
  identity on that value, while every random draw made by a protocol
  (PRSS bits, mask values) is an explicit argument;
* `assert` statements become `Option`/guard results (`none` = assertion
  failure);
* the compact field `GF256` and the helpers of `viff/field.py`,
  `viff/shamir.py` and `viff/prss.py` are not part of the sources and are
  modelled from the spec where needed.
-/

/-! ## Program counters -/

/-- Program counter of a `Runtime` instance: a list of naturals, the last
element being the innermost frame (`viff/runtime.py`, `Runtime.program_counter`). -/
abbrev ProgramCounter := List Nat

/-- Shallow embedding of the `increment_pc` decorator (`viff/runtime.py`):
`self.program_counter[-1] += 1; self.program_counter.append(0)` on entry, the
wrapped body runs in that state, and the `finally:` clause pops the last frame
on every exit path. The body is a state transformer on the program counter
returning `Except ε α`, which covers both the normal return and a raised
exception propagating out of the body. -/
def increment_pc (body : ProgramCounter → Except ε α × ProgramCounter)
    (pc : ProgramCounter) : Except ε α × ProgramCounter :=
  let entered := pc.dropLast ++ [pc.getLastD 0 + 1, 0]
  let res := body entered
  (res.1, res.2.dropLast)

/-- Shallow embedding of the `callback_wrapper` closure inside
`Runtime.callback` (`viff/runtime.py`): when the continuation fires, the
current program counter is saved, the snapshot taken at registration time is
installed, the function runs, and the `finally:` clause restores the saved
current counter on every exit path.  The wrapped function's own final
program-counter state is discarded by the restoration. -/
def callback_wrapper (saved_pc : ProgramCounter)
    (func : ProgramCounter → Except ε α × ProgramCounter)
    (current_pc : ProgramCounter) : Except ε α × ProgramCounter :=
  ((func saved_pc).1, current_pc)

/-- Shallow embedding of the life cycle of a continuation scheduled through
`Runtime.callback`: at registration time the program counter `pc0` is copied
into `saved_pc`; between registration and firing the runtime's counter drifts
arbitrarily (`drift`); when the deferred fires, `callback_wrapper` runs the
continuation. -/
def callback_register_fire (pc0 : ProgramCounter)
    (drift : ProgramCounter → ProgramCounter)
    (func : ProgramCounter → Except ε α × ProgramCounter) :
    Except ε α × ProgramCounter :=
  callback_wrapper pc0 func (drift pc0)

/-! ## Claim C2: frame effect of `increment_pc` -/

/-- Claim C2: calling an `increment_pc`-decorated operation at program counter
`p` increments the last element of `p`, appends a fresh `0` frame, runs the
body in that state, and on every exit path (normal `Except.ok` return as well
as a raised `Except.error`) pops the appended frame, leaving the counter equal
to `p` with only its last element incremented (same length, all other
elements unchanged).  The body is assumed to be frame-local: it only mutates
the last element of whatever counter it is given. -/
theorem claim_C2_increment_pc (ε α : Type)
    (body : ProgramCounter → Except ε α × ProgramCounter)
    (pc : ProgramCounter) (hpc : pc ≠ [])
    (hbody : ∀ q, ((body q).2).dropLast = q.dropLast ∧
      ((body q).2).length = q.length) :
    (increment_pc body pc).1 = (body (pc.dropLast ++ [pc.getLastD 0 + 1, 0])).1 ∧
    (increment_pc body pc).2 = pc.dropLast ++ [pc.getLastD 0 + 1] ∧
    ((increment_pc body pc).2).length = pc.length ∧
    ((increment_pc body pc).2).dropLast = pc.dropLast ∧
    ((increment_pc body pc).2).getLastD 0 = pc.getLastD 0 + 1 := by
  obtain ⟨xs, x, h⟩ := (List.eq_nil_or_concat pc).resolve_left hpc
  rw [List.concat_eq_append] at h
  subst h
  have hd : (xs ++ [x]).dropLast = xs := List.dropLast_concat ..
  have hg : (xs ++ [x]).getLastD 0 = x := by
    simp [List.getLastD_concat]
  have hbody2 := hbody (xs ++ [x + 1, 0])
  have hsplit : xs ++ [x + 1, 0] = (xs ++ [x + 1]) ++ [0] := by simp
  have hdrop2 : (xs ++ [x + 1, 0]).dropLast = xs ++ [x + 1] := by
    rw [hsplit, List.dropLast_concat]
  have hfinal : (increment_pc body (xs ++ [x])).2 = xs ++ [x + 1] := by
    show ((body ((xs ++ [x]).dropLast ++ [(xs ++ [x]).getLastD 0 + 1, 0])).2).dropLast
        = xs ++ [x + 1]
    rw [hd, hg, hbody2.1, hdrop2]
  refine ⟨?_, by rw [hd, hg]; exact hfinal, ?_, ?_, ?_⟩
  · show (body ((xs ++ [x]).dropLast ++ [(xs ++ [x]).getLastD 0 + 1, 0])).1 = _
    rw [hd, hg]
  · rw [hfinal]; simp
  · rw [hfinal, hd, List.dropLast_concat]
  · rw [hfinal, hg, List.getLastD_concat]

/-- Witness for claim C2 at a concrete program counter and a body raising an
exception (the error exit path). -/
theorem claim_C2_witness :
    (increment_pc (fun q => ((Except.error 7 : Except Nat Nat), q))
      ([3, 5] : ProgramCounter)).2 = [3, 6] ∧
    (increment_pc (fun q => ((Except.error 7 : Except Nat Nat), q))
      ([3, 5] : ProgramCounter)).1 = Except.error 7 := by
  have h := claim_C2_increment_pc Nat Nat
    (fun q => ((Except.error 7 : Except Nat Nat), q)) [3, 5]
    (by decide) (fun q => ⟨rfl, rfl⟩)
  exact ⟨h.2.1, by rw [h.1]⟩

/-! ## Claim C3: snapshot and restore around continuations -/

/-- Claim C3: a continuation scheduled through `Runtime.callback` snapshots
the program counter at registration time; when it later fires it runs with
the counter equal to that snapshot, and afterwards — on normal return or on
exception — the counter is restored to exactly the value it had immediately
before the continuation fired, however the counter drifted between
registration and firing and whatever the continuation did to the counter. -/
theorem claim_C3_callback_snapshot_restore (ε α : Type)
    (pc0 : ProgramCounter) (drift : ProgramCounter → ProgramCounter)
    (func : ProgramCounter → Except ε α × ProgramCounter) :
    (callback_register_fire pc0 drift func).1 = (func pc0).1 ∧
    (callback_register_fire pc0 drift func).2 = drift pc0 := by
  exact ⟨rfl, rfl⟩

/-! ## Bits and numbers -/

/-- Numeric value of a Python boolean / 0-1 integer. -/
def bitN (b : Bool) : Nat := if b then 1 else 0

/-- Field element of `GF(p)` corresponding to a 0/1 bit. -/
def bitF (p : Nat) (b : Bool) : ZMod p := if b then 1 else 0

/-- Natural number with the given little-endian list of bits. -/
def bitsToNat : List Bool → Nat
  | [] => 0
  | b :: bs => bitN b + 2 * bitsToNat bs

theorem bitsToNat_lt : ∀ bs : List Bool, bitsToNat bs < 2 ^ bs.length := by
  intro bs
  induction bs with
  | nil => simp [bitsToNat]
  | cons b bs ih =>
    simp only [bitsToNat, List.length_cons, pow_succ]
    cases b <;> simp [bitN] <;> omega

theorem testBit_bitsToNat : ∀ (bs : List Bool) (i : Nat),
    (bitsToNat bs).testBit i = bs.getD i false := by
  intro bs
  induction bs with
  | nil => intro i; simp [bitsToNat]
  | cons b bs ih =>
    intro i
    cases i with
    | zero =>
      rw [Nat.testBit_zero]
      cases b <;> simp [bitsToNat, bitN] <;> omega
    | succ j =>
      rw [Nat.testBit_succ]
      have hdiv : (bitsToNat (b :: bs)) / 2 = bitsToNat bs := by
        cases b <;> simp [bitsToNat, bitN] <;> omega
      rw [hdiv, ih]
      simp

theorem bitsToNat_mod : ∀ (bs : List Bool) (k : Nat),
    bitsToNat bs % 2 ^ k = bitsToNat (bs.take k) := by
  intro bs
  induction bs with
  | nil => intro k; simp [bitsToNat]
  | cons b bs ih =>
    intro k
    cases k with
    | zero => simp [bitsToNat, Nat.mod_one]
    | succ j =>
      have h2 : (2:Nat) ^ (j + 1) = 2 * 2 ^ j := by ring
      have hb : bitN b < 2 := by cases b <;> simp [bitN]
      have hmm : (2 * bitsToNat bs) % (2 * 2 ^ j) = 2 * (bitsToNat bs % 2 ^ j) :=
        Nat.mul_mod_mul_left 2 _ _
      have hj : 0 < 2 ^ j := Nat.pos_pow_of_pos j (by norm_num)
      have hlt : bitN b + 2 * (bitsToNat bs % 2 ^ j) < 2 * 2 ^ j := by
        have := Nat.mod_lt (bitsToNat bs) (y := 2 ^ j) hj
        omega
      calc bitsToNat (b :: bs) % 2 ^ (j + 1)
      _ = (bitN b + 2 * bitsToNat bs) % (2 * 2 ^ j) := by rw [h2]; rfl
      _ = (bitN b % (2 * 2 ^ j) + (2 * bitsToNat bs) % (2 * 2 ^ j)) % (2 * 2 ^ j) := by
        rw [Nat.add_mod]
      _ = (bitN b + 2 * (bitsToNat bs % 2 ^ j)) % (2 * 2 ^ j) := by
        rw [hmm, Nat.mod_eq_of_lt (show bitN b < 2 * 2 ^ j by omega)]
      _ = bitN b + 2 * (bitsToNat bs % 2 ^ j) := Nat.mod_eq_of_lt hlt
      _ = bitsToNat ((b :: bs).take (j + 1)) := by rw [List.take_succ_cons]; rw [ih]; rfl

theorem bitF_eq_cast_bitN (p : Nat) (b : Bool) :
    ((bitN b : Nat) : ZMod p) = bitF p b := by
  cases b <;> simp [bitN, bitF]

/-- Splitting a natural into its low bits and the bit at position `i`:
`x % 2^(i+1) = x % 2^i + 2^i * (bit i of x)`. -/
theorem mod_pow_succ_eq (x i : Nat) :
    x % 2 ^ (i + 1) = x % 2 ^ i + 2 ^ i * bitN (x.testBit i) := by
  have h2 : (2:Nat) ^ (i + 1) = 2 ^ i * 2 := by ring
  rw [h2, Nat.mod_mul, Nat.testBit_to_div_mod]
  have : x / 2 ^ i % 2 = 0 ∨ x / 2 ^ i % 2 = 1 := by omega
  rcases this with h | h <;> rw [h] <;> simp [bitN]

/-- Reduction of a value below `2*M` modulo `M`. -/
theorem mod_two_mul_cases (S M : Nat) (h0 : 0 < M) (h : S < 2 * M) :
    S % M = if S < M then S else S - M := by
  split
  · exact Nat.mod_eq_of_lt (by omega)
  · rw [Nat.mod_eq_sub_mod (by omega), Nat.mod_eq_of_lt (by omega)]

/-! ## Field inverse (modelled from the spec) -/

/-- Modelled from the spec: fuel-driven binary exponentiation in `GF(p)`,
used to realize the multiplicative inverse of `viff/field.py` (not part of
src/). -/
def powAux (p : Nat) : Nat → ZMod p → Nat → ZMod p
  | 0, _, _ => 1
  | fuel + 1, x, n =>
    if n = 0 then 1
    else
      let r := powAux p fuel (x * x) (n / 2)
      if n % 2 = 1 then x * r else r

theorem powAux_eq_pow (p : Nat) :
    ∀ (fuel : Nat) (x : ZMod p) (n : Nat), n < 2 ^ fuel → powAux p fuel x n = x ^ n := by
  intro fuel
  induction fuel with
  | zero =>
    intro x n h
    have : n = 0 := by simpa using h
    subst this; simp [powAux]
  | succ f ih =>
    intro x n h
    by_cases hn : n = 0
    · subst hn; simp [powAux]
    · have hdiv : n / 2 < 2 ^ f := by
        have : (2:Nat) ^ (f + 1) = 2 ^ f * 2 := by ring
        omega
      have hrec := ih (x * x) (n / 2) hdiv
      have hxx : (x * x) ^ (n / 2) = x ^ (2 * (n / 2)) := by
        rw [two_mul, pow_add]; ring
      have hsplit : x ^ n = x ^ (n % 2) * x ^ (2 * (n / 2)) := by
        rw [← pow_add]
        congr 1
        omega
      simp only [powAux, hn, if_false, hrec, hxx]
      by_cases hpar : n % 2 = 1
      · simp only [hpar, if_true, hsplit, pow_one]
      · have : n % 2 = 0 := by omega
        simp only [hpar, if_false, hsplit, this, pow_zero, one_mul]
        norm_num

/-- Modelled from the spec: multiplicative inverse of a field element (the
`~` operator of `viff/field.py`, not part of src/), realized by Fermat
exponentiation `x^(p-2)` in the prime field `GF(p)`. -/
def fieldInv (p : Nat) (x : ZMod p) : ZMod p := powAux p p x (p - 2)

theorem fieldInv_eq_pow (p : Nat) (x : ZMod p) : fieldInv p x = x ^ (p - 2) := by
  apply powAux_eq_pow
  have := Nat.lt_two_pow p
  omega

theorem mul_fieldInv_cancel (p : Nat) (hp : p.Prime) (x : ZMod p) (hx : x ≠ 0) :
    x * fieldInv p x = 1 := by
  haveI : Fact p.Prime := ⟨hp⟩
  rw [fieldInv_eq_pow]
  have h1 : x * x ^ (p - 2) = x ^ (p - 1) := by
    rw [← pow_succ']
    congr 1
    have := hp.two_le
    omega
  rw [h1, ZMod.pow_card_sub_one_eq_one hx]

/-! ## The compact field GF256 (modelled from the spec) -/

/-- Modelled from the spec: byte representative of an element of the
256-element characteristic-2 compact field (`GF256` of `viff/field.py`,
not part of src/). -/
abbrev GF256 := Nat

/-- Modelled from the spec: `GF256` addition is bitwise exclusive-or of the
byte representatives (characteristic-2 field). -/
def gf256_add (a b : GF256) : GF256 := (a % 256) ^^^ (b % 256)

/-- Modelled from the spec: carry-less (polynomial over GF(2)) product of two
byte representatives. -/
def gf256_clmul (a b : Nat) : Nat :=
  (List.range 8).foldl (fun acc i => if b.testBit i then acc ^^^ (a <<< i) else acc) 0

/-- Modelled from the spec: reduction of a degree-below-15 polynomial modulo
the degree-8 field polynomial x^8 + x^4 + x^3 + x + 1 (0x11B = 283). -/
def gf256_reduce (x : Nat) : Nat :=
  [14, 13, 12, 11, 10, 9, 8].foldl
    (fun acc i => if acc.testBit i then acc ^^^ (283 <<< (i - 8)) else acc) x

/-- Modelled from the spec: `GF256` multiplication. -/
def gf256_mul (a b : GF256) : GF256 := gf256_reduce (gf256_clmul (a % 256) (b % 256))

theorem gf256_add_bits (x y : Bool) :
    gf256_add (bitN x) (bitN y) = bitN (x ^^ y) := by
  cases x <;> cases y <;> decide

theorem gf256_mul_bits (x y : Bool) :
    gf256_mul (bitN x) (bitN y) = bitN (x && y) := by
  cases x <;> cases y <;> decide

/-! ## Exclusive-or of shares -/

/-- Shallow embedding of `Runtime.add` on large-field shares
(`viff/runtime.py`): wait for both operands and add the field values. -/
def runtime_add (p : Nat) (a b : ZMod p) : ZMod p := a + b

/-- Shallow embedding of `Runtime.add` on `GF256` shares: the same method,
resolved at `GF256` values, where share addition is `GF256` addition. -/
def runtime_add_gf256 (a b : GF256) : GF256 := gf256_add a b

/-- Shallow embedding of `Runtime.xor_int` (`viff/runtime.py`):
`share_c = mul(a, b)` and the result resolves to `a + b - 2*c`. -/
def xor_int (p : Nat) (a b : ZMod p) : ZMod p :=
  let c := a * b
  a + b - 2 * c

/-- Shallow embedding of the class attribute `xor_bit = add`
(`viff/runtime.py`): exclusive-or of `GF256` sharings is share addition. -/
def xor_bit : GF256 → GF256 → GF256 := runtime_add_gf256

theorem xor_int_bits (p : Nat) (x y : Bool) :
    xor_int p (bitF p x) (bitF p y) = bitF p (x ^^ y) := by
  cases x <;> cases y <;> simp [xor_int, bitF] <;> ring

theorem xor_bit_bits (x y : Bool) :
    xor_bit (bitN x) (bitN y) = bitN (x ^^ y) :=
  gf256_add_bits x y

/-! ## Claim C8: xor_bit is add; xor_int is a + b - 2ab -/

/-- Claim C8: `xor_bit` is the very same operation as `add` (exclusive-or of
`GF256` shares is share addition, which on the characteristic-2 field is
bitwise xor of the byte representatives), and `xor_int a b` resolves to the
field value `a + b - 2*a*b`; consequently, for operands resolving to bits in
{0, 1}, both operations resolve to the logical exclusive-or of those bits. -/
theorem claim_C8_xor (p : Nat) (a b : ZMod p) (x y : Bool) :
    xor_bit = runtime_add_gf256 ∧
    xor_bit (bitN x) (bitN y) = bitN (x ^^ y) ∧
    xor_int p a b = a + b - 2 * (a * b) ∧
    xor_int p (bitF p x) (bitF p y) = bitF p (x ^^ y) := by
  refine ⟨rfl, ?_, rfl, xor_int_bits p x y⟩
  show gf256_add (bitN x) (bitN y) = bitN (x ^^ y)
  exact gf256_add_bits x y

/-- Witness for claim C8 at concrete values. -/
theorem claim_C8_witness :
    xor_int 11 (bitF 11 true) (bitF 11 false) = bitF 11 true ∧
    xor_bit (bitN true) (bitN true) = bitN false :=
  ⟨(claim_C8_xor 11 0 0 true false).2.2.2, (claim_C8_xor 11 0 0 true true).2.1⟩

/-! ## The pending-share table -/

/-- Resolution state of a deferred share held in the pending-share table. -/
inductive ShareState (V : Type) : Type
  | pending : ShareState V
  | resolved : V → ShareState V
deriving DecidableEq, Repr

/-- Key of the pending-share table: a (program counter, peer id) pair. -/
abbrev ShareKey := ProgramCounter × Nat

/-- The pending-share table `Runtime.incoming_shares`: a finite mapping from
(program counter, peer id) keys to deferred shares, embedded as an
association list. -/
abbrev ShareTable (V : Type) := List (ShareKey × ShareState V)

/-- Lookup in the pending-share table (`key in self.incoming_shares`). -/
def tableGet {V : Type} : ShareTable V → ShareKey → Option (ShareState V)
  | [], _ => none
  | e :: t, k => if e.1 = k then some e.2 else tableGet t k

/-- Removal from the pending-share table (`shares.pop(key)`). -/
def tableErase {V : Type} (t : ShareTable V) (k : ShareKey) : ShareTable V :=
  t.filter (fun e => decide (e.1 ≠ k))

/-- Insertion into the pending-share table (`self.incoming_shares[key] = ...`). -/
def tableInsert {V : Type} (t : ShareTable V) (k : ShareKey) (s : ShareState V) :
    ShareTable V :=
  (k, s) :: tableErase t k

/-- Shallow embedding of `ShareExchanger.stringReceived` (`viff/runtime.py`):
an inbound share for `(program_counter, peer)` either pops and resolves an
existing entry (the second component reports the delivered value), or creates
a new, already-resolved entry in the table. -/
def stringReceived {V : Type} (t : ShareTable V) (pc : ProgramCounter)
    (peer : Nat) (v : V) : ShareTable V × Option V :=
  let key : ShareKey := (pc, peer)
  match tableGet t key with
  | some _ => (tableErase t key, some v)
  | none => (tableInsert t key (ShareState.resolved v), none)

/-- Shallow embedding of the remote branch of `Runtime._exchange_shares`
(`viff/runtime.py`): if the key is not present, a fresh pending entry is
created; the caller then holds (a reference to) the share stored under the
key.  No entry is ever removed by this path. -/
def exchange_shares {V : Type} (t : ShareTable V) (pc : ProgramCounter)
    (peer : Nat) : ShareTable V × ShareKey :=
  let key : ShareKey := (pc, peer)
  if (tableGet t key).isSome then (t, key)
  else (tableInsert t key ShareState.pending, key)

/-! ## Claim C5: life cycle of pending-share table entries -/

/-- Claim C5 counterexample: in the message-arrives-first ordering the claim
"the entry is removed from the table once the share it holds is resolved"
fails.  Concretely, on an empty table the network handler stores an
already-resolved share under the key `([1], 2)`, and the subsequent local
receive call (`_exchange_shares`) returns that entry without removing it: the
resolved entry is still in the table afterwards, and no later operation
removes it. -/
theorem claim_C5_counterexample :
    tableGet (exchange_shares (stringReceived ([] : ShareTable Nat) [1] 2 5).1 [1] 2).1
        ([1], 2) = some (ShareState.resolved 5) := by
  decide

/-- Claim C5 as amended: an entry is created on the first reference to its
key by whichever of the local receive path (`_exchange_shares`) or the
network inbound handler (`stringReceived`) touches it first; in the
receive-first ordering the entry is removed when the network message arrives
and the share is resolved with the delivered value; in the
message-arrives-first ordering the entry holds an already-resolved share and
is not removed by the receive call. -/
theorem claim_C5_amended (V : Type) (t : ShareTable V) (pc : ProgramCounter)
    (peer : Nat) (v : V) (habsent : tableGet t (pc, peer) = none) :
    -- creation on first reference, receive path
    tableGet (exchange_shares t pc peer).1 (pc, peer) = some ShareState.pending ∧
    -- creation on first reference, network path (entry born resolved)
    tableGet (stringReceived t pc peer v).1 (pc, peer)
      = some (ShareState.resolved v) ∧
    -- receive-first ordering: entry removed when the message arrives,
    -- and the share resolves with the delivered value
    tableGet (stringReceived (exchange_shares t pc peer).1 pc peer v).1 (pc, peer)
      = none ∧
    (stringReceived (exchange_shares t pc peer).1 pc peer v).2 = some v ∧
    -- message-first ordering: the later receive call leaves the table
    -- unchanged, so the resolved entry persists
    (exchange_shares (stringReceived t pc peer v).1 pc peer).1
      = (stringReceived t pc peer v).1 := by
  have hget : ∀ (s : ShareState V),
      tableGet (tableInsert t (pc, peer) s) (pc, peer) = some s := by
    intro s
    simp [tableInsert, tableGet]
  have hex : (exchange_shares t pc peer).1
      = tableInsert t (pc, peer) ShareState.pending := by
    simp [exchange_shares, habsent]
  have hsr : (stringReceived t pc peer v).1
      = tableInsert t (pc, peer) (ShareState.resolved v) := by
    simp [stringReceived, habsent]
  have herase : ∀ (s : ShareState V),
      tableGet (tableErase (tableInsert t (pc, peer) s) (pc, peer)) (pc, peer)
        = none := by
    intro s
    have : ∀ (u : ShareTable V),
        tableGet (u.filter (fun e => decide (e.1 ≠ (pc, peer)))) (pc, peer) = none := by
      intro u
      induction u with
      | nil => rfl
      | cons e u ih =>
        by_cases he : e.1 = (pc, peer)
        · simpa [List.filter, he] using ih
        · simpa [List.filter, he, tableGet] using ih
    exact this _
  refine ⟨by rw [hex]; exact hget _, by rw [hsr]; exact hget _, ?_, ?_, ?_⟩
  · rw [hex]
    simp only [stringReceived, hget ShareState.pending]
    exact herase _
  · rw [hex]
    simp only [stringReceived, hget ShareState.pending]
  · rw [hsr]
    simp [exchange_shares, hget (ShareState.resolved v)]

/-- Witness for claim C5 (amended) at a concrete table and key. -/
theorem claim_C5_witness :
    tableGet (exchange_shares ([] : ShareTable Nat) [4] 1).1 ([4], 1)
      = some ShareState.pending ∧
    (stringReceived (exchange_shares ([] : ShareTable Nat) [4] 1).1 [4] 1 9).2
      = some 9 :=
  ⟨(claim_C5_amended Nat [] [4] 1 9 rfl).1,
   (claim_C5_amended Nat [] [4] 1 9 rfl).2.2.2.1⟩

/-! ## Shamir recombination -/

/-- Modelled from the spec: `shamir.recombine` (shamir.py is not part of
src/) — deterministic Lagrange interpolation at x = 0 of the given
(index, value) points. -/
def shamir_recombine (p : Nat) (points : List (ZMod p × ZMod p)) : ZMod p :=
  (points.map (fun xi =>
    xi.2 * (points.map (fun xj =>
      if xj.1 = xi.1 then 1 else xj.1 * fieldInv p (xj.1 - xi.1))).prod)).sum

/-- Shallow embedding of `Runtime._recombine` (`viff/runtime.py`): assert that
more than `threshold` deferred (id, share) pairs were supplied, gather the
first `threshold + 1` of them and Shamir-recombine those; `none` models the
assertion failure. -/
def runtime_recombine (p : Nat) (shares : List (ZMod p × ZMod p))
    (threshold : Nat) : Option (ZMod p) :=
  if shares.length > threshold then
    some (shamir_recombine p (shares.take (threshold + 1)))
  else none

/-! ## Claim C6: _recombine uses exactly the first threshold+1 pairs -/

/-- Claim C6: `_recombine(shares, threshold)` is deterministic (a pure
function of its arguments), passes exactly the first `threshold + 1`
(index, share) pairs to Shamir recombination — so any two supplied lists
agreeing on their first `threshold + 1` pairs produce the same result, later
pairs being ignored without any consistency validation — and it fails
(assertion error, `none`) whenever at most `threshold` pairs are supplied. -/
theorem claim_C6_recombine (p : Nat) (threshold : Nat)
    (shares shares' : List (ZMod p × ZMod p))
    (hagree : shares.take (threshold + 1) = shares'.take (threshold + 1))
    (hlen : shares.length > threshold) (hlen' : shares'.length > threshold)
    (short : List (ZMod p × ZMod p)) (hshort : short.length ≤ threshold) :
    runtime_recombine p shares threshold = runtime_recombine p shares' threshold ∧
    runtime_recombine p shares threshold
      = some (shamir_recombine p (shares.take (threshold + 1))) ∧
    runtime_recombine p short threshold = none := by
  refine ⟨?_, ?_, ?_⟩
  · simp only [runtime_recombine, if_pos hlen, if_pos hlen', hagree]
  · simp only [runtime_recombine, if_pos hlen]
  · have hno : ¬ (short.length > threshold) := by omega
    simp only [runtime_recombine, if_neg hno]

/-- Witness for claim C6: two concrete 4-point lists over `GF(7)` agreeing on
their first 2 points give the same result, and a 1-point list fails. -/
theorem claim_C6_witness :
    runtime_recombine 7 [(1, 2), (2, 3), (3, 1), (4, 4)] 1
      = runtime_recombine 7 [(1, 2), (2, 3), (5, 6), (6, 0)] 1 ∧
    runtime_recombine 7 [(1, 2)] 1 = none := by
  have h := claim_C6_recombine 7 1
    [(1, 2), (2, 3), (3, 1), (4, 4)] [(1, 2), (2, 3), (5, 6), (6, 0)]
    (by decide) (by decide) (by decide) [(1, 2)] (by decide)
  exact ⟨h.1, h.2.2⟩

/-! ## Binary PRSS draws -/

/-- Shallow embedding of `Runtime.prss_share_random(field, binary=True)` for
the large prime field (`viff/runtime.py`): each attempt locally derives a
PRSS share (the successive ideal values are the `draws` stream), squares it
and opens the square; a zero opened square retries the entire draw on the
next stream element; otherwise the returned share is
`(share / root + 1) / 2`, where `root = sqrtFn square` models
`FieldElement.sqrt` (field.py is not part of src/) and division is
multiplication by the field inverse. -/
def prss_share_random_binary (p : Nat) (sqrtFn : ZMod p → ZMod p) :
    List (ZMod p) → Option (ZMod p)
  | [] => none
  | share :: rest =>
    let square := share * share
    if square = 0 then prss_share_random_binary p sqrtFn rest
    else
      let root := sqrtFn square
      some ((share * fieldInv p root + 1) * fieldInv p (2 : ZMod p))

/-! ## Claim C9: the binary draw retries on zero squares and yields a bit -/

/-- Claim C9: `prss_share_random(field, binary=True)` squares the locally
derived PRSS share and opens the square; whenever the opened square is
exactly zero the entire draw is retried from scratch (a prefix of draws whose
squares are zero is skipped — such draws are themselves zero), and otherwise
the returned share equals `(share/root + 1)/2` for `root` a square root of
the opened square, and that value is a share of a value in {0, 1}. -/
theorem claim_C9_prss_share_random_binary (p : Nat) (hp : p.Prime) (hp2 : 2 < p)
    (sqrtFn : ZMod p → ZMod p) (zeros : List (ZMod p)) (s : ZMod p)
    (rest : List (ZMod p)) (hzeros : ∀ z ∈ zeros, z = 0) (hs : s ≠ 0)
    (hroot : sqrtFn (s * s) * sqrtFn (s * s) = s * s) :
    prss_share_random_binary p sqrtFn (zeros ++ s :: rest)
      = some ((s * fieldInv p (sqrtFn (s * s)) + 1) * fieldInv p (2 : ZMod p)) ∧
    ((s * fieldInv p (sqrtFn (s * s)) + 1) * fieldInv p (2 : ZMod p) = 0 ∨
     (s * fieldInv p (sqrtFn (s * s)) + 1) * fieldInv p (2 : ZMod p) = 1) := by
  haveI : Fact p.Prime := ⟨hp⟩
  constructor
  · induction zeros with
    | nil =>
      have hsq : s * s ≠ 0 := mul_ne_zero hs hs
      simp [prss_share_random_binary, hsq]
    | cons z zs ih =>
      have hz : z = 0 := hzeros z (by simp)
      have hzs : ∀ w ∈ zs, w = 0 := fun w hw => hzeros w (by simp [hw])
      subst hz
      simpa [prss_share_random_binary] using ih hzs
  · set r := sqrtFn (s * s) with hr
    have hrne : r ≠ 0 := by
      intro h0
      rw [h0] at hroot
      exact mul_ne_zero hs hs (by rw [← hroot]; ring)
    have hcases : r = s ∨ r = -s := by
      have : (r - s) * (r + s) = 0 := by
        have : r * r - s * s = 0 := by rw [hroot]; ring
        calc (r - s) * (r + s) = r * r - s * s := by ring
        _ = 0 := this
      rcases mul_eq_zero.mp this with h | h
      · left; linear_combination h
      · right; linear_combination h
    rcases hcases with h | h
    · right
      rw [h]
      have hinv : s * fieldInv p s = 1 := mul_fieldInv_cancel p hp s hs
      have h2 : (2 : ZMod p) ≠ 0 := by
        have : ((2 : Nat) : ZMod p) ≠ 0 := by
          rw [Ne, ZMod.natCast_zmod_eq_zero_iff_dvd]
          intro hdvd
          have := Nat.le_of_dvd (by norm_num) hdvd
          omega
        simpa using this
      have hinv2 : (2 : ZMod p) * fieldInv p 2 = 1 := mul_fieldInv_cancel p hp 2 h2
      rw [hinv]
      calc (1 + 1 : ZMod p) * fieldInv p 2 = (2 : ZMod p) * fieldInv p 2 := by ring
      _ = 1 := hinv2
    · left
      rw [h]
      have hneg : -s ≠ 0 := neg_ne_zero.mpr hs
      have hinv : -s * fieldInv p (-s) = 1 := mul_fieldInv_cancel p hp (-s) hneg
      have : s * fieldInv p (-s) = -1 := by linear_combination -hinv
      rw [this]
      ring

/-- Witness for claim C9: over `GF(5)`, a zero draw followed by the draw `2`,
with square root function sending 4 to 3 (indeed 3*3 = 4 in `GF(5)`). -/
theorem claim_C9_witness :
    prss_share_random_binary 5 (fun _ => 3) [0, 2]
      = some (((2 : ZMod 5) * fieldInv 5 3 + 1) * fieldInv 5 2) ∧
    (((2 : ZMod 5) * fieldInv 5 3 + 1) * fieldInv 5 2 = 0 ∨
     ((2 : ZMod 5) * fieldInv 5 3 + 1) * fieldInv 5 2 = 1) := by
  have h := claim_C9_prss_share_random_binary 5 (by norm_num) (by norm_num)
    (fun _ => 3) [0] 2 [] (by decide) (by decide) (by decide)
  exact h

/-! ## ShareList and gather_shares -/

/-- Mutable state of a `ShareList` (`viff/runtime.py`): the `results` slots
(`None` until the corresponding share fires), the number of still-missing
shares, the `called` flag of the underlying deferred, and the value the
deferred was called back with, if any. -/
structure ShareListState (V : Type) where
  results : List (Option (Bool × V))
  missing : Nat
  called : Bool
  output : Option (List (Option (Bool × V)))

/-- Boolean form of the `ShareList.__init__` threshold assertion
`threshold is None or 0 < threshold <= len(shares)`. -/
def threshold_ok (k : Nat) : Option Nat → Bool
  | none => true
  | some t => decide (0 < t ∧ t ≤ k)

/-- Shallow embedding of `ShareList.__init__` (`viff/runtime.py`) for `k`
input shares: `none` models a failure of the two assertions (empty share
list, or threshold out of range); otherwise the result slots start as `None`
and `missing_shares` is the threshold, defaulting to `k`. -/
def mkShareList (V : Type) (k : Nat) (threshold : Option Nat) :
    Option (ShareListState V) :=
  if 0 < k ∧ threshold_ok k threshold = true then
    some { results := List.replicate k none,
           missing := threshold.getD k,
           called := false,
           output := none }
  else none

/-- Shallow embedding of `ShareList._callback_fired` (`viff/runtime.py`):
store `(success, result)` at the firing share's index, decrement
`missing_shares`, and when it reaches zero and the deferred has not yet been
called, call it back with the results list. -/
def callback_fired {V : Type} (st : ShareListState V) (index : Nat)
    (success : Bool) (result : V) : ShareListState V :=
  let results := st.results.set index (some (success, result))
  let missing := st.missing - 1
  if ¬ st.called ∧ missing = 0 then
    { results := results, missing := missing, called := true,
      output := some results }
  else
    { results := results, missing := missing, called := st.called,
      output := st.output }

/-- Firing schedule of a `ShareList` over shares resolving to `values`: the
share with index `i` fires (successfully) with value `values[i]`, in the
real-time arrival order given by `order`. -/
def fire_all {V : Type} (values : List V) (dflt : V) (st : ShareListState V)
    (order : List Nat) : ShareListState V :=
  order.foldl (fun s i => callback_fired s i true (values.getD i dflt)) st

/-- Shallow embedding of `filter_results` inside `gather_shares`
(`viff/runtime.py`): keep the share of every fired `(success, share)` pair. -/
def filter_results {V : Type} (results : List (Option (Bool × V))) : List V :=
  results.filterMap (fun e => e.map Prod.snd)

/-- Output of `gather_shares` (`viff/runtime.py`): the `ShareList` output
passed through `filter_results`. -/
def gather_output {V : Type} (st : ShareListState V) : Option (List V) :=
  st.output.map filter_results

/-- Invariant of a `ShareList` run over shares resolving to `values` after
the shares with indices in `S` have fired. -/
def ShareListInv (V : Type) (values : List V) (dflt : V) (S : List Nat)
    (st : ShareListState V) : Prop :=
  st.results.length = values.length ∧
  (∀ j, j < values.length → st.results.getD j none =
    if j ∈ S then some (true, values.getD j dflt) else none) ∧
  st.missing = values.length - S.length ∧
  st.called = decide (S.length = values.length) ∧
  st.output = if S.length = values.length
    then some (values.map (fun v => some (true, v))) else none

theorem callback_fired_inv (V : Type) (values : List V) (dflt : V)
    (S : List Nat) (i : Nat) (st : ShareListState V)
    (hnd : (S ++ [i]).Nodup) (hb : ∀ x ∈ S ++ [i], x < values.length)
    (hinv : ShareListInv V values dflt S st) :
    ShareListInv V values dflt (S ++ [i])
      (callback_fired st i true (values.getD i dflt)) := by
  obtain ⟨hrl, hrp, hm, hc, ho⟩ := hinv
  have hi : i < values.length := hb i (by simp)
  have hsub : (S ++ [i]).Subperm (List.range values.length) :=
    List.subperm_of_subset hnd (fun x hx => List.mem_range.mpr (hb x hx))
  have hlen1 : S.length + 1 ≤ values.length := by
    have := hsub.length_le
    simpa using this
  have hcfalse : st.called = false := by
    rw [hc, decide_eq_false_iff_not]
    omega
  have hrl' : (st.results.set i (some (true, values.getD i dflt))).length
      = values.length := by rw [List.length_set, hrl]
  have hrp' : ∀ j, j < values.length →
      (st.results.set i (some (true, values.getD i dflt))).getD j none =
        if j ∈ S ++ [i] then some (true, values.getD j dflt) else none := by
    intro j hj
    rw [List.getD_eq_getElem _ _ (by rw [hrl']; exact hj), List.getElem_set]
    by_cases hij : i = j
    · subst hij
      simp
    · rw [if_neg hij, ← List.getD_eq_getElem _ none (by rw [hrl]; exact hj), hrp j hj]
      have hmem : (j ∈ S ++ [i]) ↔ j ∈ S := by
        rw [List.mem_append, List.mem_singleton]
        constructor
        · rintro (h | h)
          · exact h
          · exact absurd h.symm hij
        · exact Or.inl
      by_cases hjS : j ∈ S
      · rw [if_pos hjS, if_pos (hmem.mpr hjS)]
      · rw [if_neg hjS, if_neg (fun h => hjS (hmem.mp h))]
  by_cases hcomp : values.length = S.length + 1
  · -- this firing completes the list: the deferred is called back
    have hms : st.missing - 1 = 0 := by omega
    have hfull : ∀ j, j < values.length → j ∈ S ++ [i] := by
      intro j hj
      have hperm : (S ++ [i]).Perm (List.range values.length) :=
        hsub.perm_of_length_le (by simp [hcomp])
      rw [hperm.mem_iff]
      exact List.mem_range.mpr hj
    have hres : st.results.set i (some (true, values.getD i dflt)) =
        values.map (fun v => some (true, v)) := by
      apply List.ext_getElem (by rw [List.length_set, List.length_map, hrl])
      intro n h1 h2
      have hn : n < values.length := by rw [← hrl']; exact h1
      have := hrp' n hn
      rw [List.getD_eq_getElem _ none h1] at this
      rw [this, if_pos (hfull n hn), List.getElem_map,
        List.getD_eq_getElem values dflt hn]
    have hcb : callback_fired st i true (values.getD i dflt) =
        { results := st.results.set i (some (true, values.getD i dflt)),
          missing := st.missing - 1, called := true,
          output := some (st.results.set i (some (true, values.getD i dflt))) } := by
      simp only [callback_fired]
      rw [if_pos ⟨by rw [hcfalse]; simp, hms⟩]
    rw [hcb]
    refine ⟨hrl', hrp', ?_, ?_, ?_⟩
    · show st.missing - 1 = values.length - (S ++ [i]).length
      rw [hm, List.length_append]
      simp
      omega
    · show true = decide ((S ++ [i]).length = values.length)
      rw [List.length_append]
      simp
      omega
    · show some _ = if (S ++ [i]).length = values.length then _ else none
      rw [if_pos (by rw [List.length_append]; simp; omega), hres]
  · -- still missing shares: no callback yet
    have hms : ¬ (st.missing - 1 = 0) := by omega
    have hcond : ¬ (¬ st.called = true ∧ st.missing - 1 = 0) := fun h => hms h.2
    have hcb : callback_fired st i true (values.getD i dflt) =
        { results := st.results.set i (some (true, values.getD i dflt)),
          missing := st.missing - 1, called := st.called,
          output := st.output } := by
      simp only [callback_fired]
      rw [if_neg hcond]
    rw [hcb]
    refine ⟨hrl', hrp', ?_, ?_, ?_⟩
    · show st.missing - 1 = values.length - (S ++ [i]).length
      rw [hm, List.length_append]
      simp
      omega
    · show st.called = decide ((S ++ [i]).length = values.length)
      rw [hcfalse, List.length_append]
      simp
      omega
    · show st.output = if (S ++ [i]).length = values.length then _ else none
      rw [ho, if_neg (by omega), if_neg (by rw [List.length_append]; simp; omega)]

theorem fire_all_inv (V : Type) (values : List V) (dflt : V) :
    ∀ (rest S : List Nat) (st : ShareListState V),
    (S ++ rest).Nodup → (∀ x ∈ S ++ rest, x < values.length) →
    ShareListInv V values dflt S st →
    ShareListInv V values dflt (S ++ rest) (fire_all values dflt st rest) := by
  intro rest
  induction rest with
  | nil =>
    intro S st hnd hb hinv
    simpa [fire_all] using hinv
  | cons i rest' ih =>
    intro S st hnd hb hinv
    have hstep : (S ++ [i]).Nodup := by
      have hsl : (S ++ [i]).Sublist (S ++ i :: rest') :=
        List.Sublist.append_left (List.cons_sublist_cons.mpr (List.nil_sublist rest')) S
      exact List.Nodup.sublist hsl hnd
    have hbstep : ∀ x ∈ S ++ [i], x < values.length := by
      intro x hx
      rcases List.mem_append.mp hx with h | h
      · exact hb x (List.mem_append.mpr (Or.inl h))
      · have : x = i := by simpa using h
        subst this
        exact hb x (List.mem_append.mpr (Or.inr (by simp)))
    have step := callback_fired_inv V values dflt S i st hstep hbstep hinv
    have hrw : S ++ i :: rest' = (S ++ [i]) ++ rest' := by simp
    have hfa : fire_all values dflt st (i :: rest') =
        fire_all values dflt (callback_fired st i true (values.getD i dflt)) rest' := rfl
    rw [hrw, hfa]
    exact ih (S ++ [i]) _ (by rw [← hrw]; exact hnd) (by rw [← hrw]; exact hb) step

/-! ## Claim C10: gather_shares resolves to values in input order -/

/-- Claim C10: for a non-empty list of shares resolving to `values`, a
`ShareList` built with the default threshold fires exactly when all shares
have fired — for every strict prefix of the arrival schedule the deferred is
still unresolved — and it resolves to the `(success, value)` pairs in input
order, independent of the real-time arrival order (any permutation `order` of
the indices); `gather_shares` then strips the success flags, yielding exactly
`values` in input-list order.  Constructing the underlying `ShareList` from
an empty list, or with a threshold outside `1..k`, fails an assertion. -/
theorem claim_C10_gather_shares (V : Type) (values : List V) (dflt : V)
    (order : List Nat) (hne : values ≠ [])
    (hperm : order.Perm (List.range values.length))
    (th : Option Nat) (k t : Nat) (hbad : ¬ (0 < t ∧ t ≤ k)) :
    mkShareList V values.length none
      = some { results := List.replicate values.length none,
               missing := values.length, called := false, output := none } ∧
    (fire_all values dflt
        { results := List.replicate values.length none,
          missing := values.length, called := false, output := none }
        order).output
      = some (values.map (fun v => some (true, v))) ∧
    gather_output (fire_all values dflt
        { results := List.replicate values.length none,
          missing := values.length, called := false, output := none }
        order)
      = some values ∧
    (∀ pre, pre <+: order → pre.length < values.length →
      (fire_all values dflt
        { results := List.replicate values.length none,
          missing := values.length, called := false, output := none }
        pre).output = none) ∧
    mkShareList V 0 th = none ∧
    mkShareList V k (some t) = none := by
  have hk : 0 < values.length := List.length_pos.mpr hne
  have hinv0 : ShareListInv V values dflt []
      { results := List.replicate values.length none,
        missing := values.length, called := false, output := none } := by
    refine ⟨by simp, ?_, by simp, ?_, ?_⟩
    · intro j hj
      rw [List.getD_eq_getElem _ none (by simpa using hj), List.getElem_replicate]
      simp
    · simp
      omega
    · rw [if_neg (by simp; omega)]
  have hnodup : order.Nodup := (hperm.nodup_iff).mpr (List.nodup_range _)
  have hbounds : ∀ x ∈ order, x < values.length := fun x hx =>
    List.mem_range.mp (hperm.subset hx)
  have hlen : order.length = values.length := by
    have := hperm.length_eq
    simpa using this
  have hfull := fire_all_inv V values dflt order [] _
    (by simpa using hnodup) (by simpa using hbounds) hinv0
  rw [List.nil_append] at hfull
  obtain ⟨-, -, -, -, hout⟩ := hfull
  rw [if_pos hlen] at hout
  have hfilter : filter_results (values.map (fun v => some (true, v))) = values := by
    rw [filter_results, List.filterMap_map]
    exact List.filterMap_some values
  refine ⟨?_, hout, ?_, ?_, ?_, ?_⟩
  · rw [mkShareList, if_pos ⟨hk, rfl⟩]
    rfl
  · rw [gather_output, hout]
    simp [hfilter]
  · intro pre hpre hprelen
    obtain ⟨suf, rfl⟩ := hpre
    have hnd' : pre.Nodup :=
      List.Nodup.sublist (List.IsPrefix.sublist ⟨suf, rfl⟩) hnodup
    have hb' : ∀ x ∈ pre, x < values.length := fun x hx =>
      hbounds x (List.mem_append.mpr (Or.inl hx))
    have hp := fire_all_inv V values dflt pre [] _
      (by simpa using hnd') (by simpa using hb') hinv0
    rw [List.nil_append] at hp
    obtain ⟨-, -, -, -, hout'⟩ := hp
    rw [if_neg (by omega)] at hout'
    exact hout'
  · rw [mkShareList, if_neg (by simp)]
  · rw [mkShareList, if_neg ?_]
    intro hcl
    rw [threshold_ok] at hcl
    have := hcl.2
    simp at this
    exact hbad this

/-- Witness for claim C10: two shares resolving to 10 and 20 arriving in
reversed real-time order still gather to `[10, 20]`, and a threshold of 5 on
2 shares fails the constructor assertion. -/
theorem claim_C10_witness :
    gather_output (fire_all [10, 20] 0
        { results := List.replicate 2 none, missing := 2, called := false,
          output := none } [1, 0]) = some [10, 20] ∧
    mkShareList Nat 2 (some 5) = none := by
  have h := claim_C10_gather_shares Nat [10, 20] 0 [1, 0] (by decide)
    (by decide) (some 5) 2 5 (by decide)
  exact ⟨h.2.2.1, h.2.2.2.2.2⟩

/-! ## Bit conversion between fields -/

/-- Shallow embedding of `Runtime.convert_bit_share` (`viff/runtime.py`) with
`src_field = GF(p)` and `dst_field = GF256`, at the ideal level: each of the
n players contributes one random mask bit (its `rand.randint(0, 1)`), listed
in `masks`; the share is xored (via `xor_int`) with all the players' PRSS
mask shares, the result is opened and re-made as a `GF256` element of the
same byte value, and the `GF256` mask shares are xored (via `xor_bit`) back
on. -/
def convert_bit_share (p : Nat) (share : ZMod p) (masks : List Bool) : GF256 :=
  let tmp : ZMod p := masks.foldl (fun acc mb => xor_int p acc (bitF p mb)) share
  let tmpConv : GF256 := tmp.val % 256
  masks.foldl (fun acc mb => xor_bit acc (bitN mb)) tmpConv

/-! ## The diamond operator and its balanced reduction -/

/-- Shallow embedding of `Runtime._diamond` (`viff/runtime.py`) on pairs of
`GF256` shares: `top = mul(top_a, top_b)` and
`bot = xor_bit(mul(top_b, xor_bit(bot_a, bot_b)), bot_b)`. -/
def diamond (ab cd : GF256 × GF256) : GF256 × GF256 :=
  (gf256_mul ab.1 cd.1, xor_bit (gf256_mul cd.1 (xor_bit ab.2 cd.2)) cd.2)

/-- One pass of the inner `while` loop of `_finish_greater_than`: combine
adjacent elements pairwise, keeping a leftover odd element at the end, and
preserving the order of elements. -/
def pair_up (f : α → α → α) : List α → List α
  | [] => []
  | [x] => [x]
  | x :: y :: rest => f x y :: pair_up f rest

theorem pair_up_length (f : α → α → α) :
    ∀ l : List α, (pair_up f l).length = (l.length + 1) / 2 := by
  intro l
  induction l using pair_up.induct f with
  | case1 => simp [pair_up]
  | case2 x => simp [pair_up]
  | case3 x y rest ih =>
    show (f x y :: pair_up f rest).length = _
    rw [List.length_cons, ih]
    simp
    omega

/-- Shallow embedding of the outer `while len(vec) > 1` loop of
`_finish_greater_than`: repeat `pair_up` until one element is left.  The
`fuel` argument (instantiated with the length of the initial vector, which
always suffices) makes the recursion structural. -/
def reduce_vec (f : α → α → α) (dflt : α) : Nat → List α → α
  | _, [] => dflt
  | _, [x] => x
  | 0, x :: _ :: _ => x
  | fuel + 1, x :: y :: rest => reduce_vec f dflt fuel (pair_up f (x :: y :: rest))

theorem foldl_pair_up (f : α → α → α)
    (hassoc : ∀ x y z, f (f x y) z = f x (f y z)) :
    ∀ (l : List α) (z : α), (pair_up f l).foldl f z = l.foldl f z := by
  intro l
  induction l using pair_up.induct f with
  | case1 => intro z; rfl
  | case2 x => intro z; rfl
  | case3 x y rest ih =>
    intro z
    show (f x y :: pair_up f rest).foldl f z = _
    rw [List.foldl_cons, ih, List.foldl_cons, List.foldl_cons, hassoc]

theorem reduce_vec_eq_foldl (f : α → α → α) (dflt : α)
    (hassoc : ∀ x y z, f (f x y) z = f x (f y z)) :
    ∀ (fuel : Nat) (x : α) (rest : List α), rest.length ≤ fuel →
      reduce_vec f dflt fuel (x :: rest) = rest.foldl f x := by
  intro fuel
  induction fuel with
  | zero =>
    intro x rest h
    have : rest = [] := List.eq_nil_of_length_eq_zero (by omega)
    subst this
    rfl
  | succ fu ih =>
    intro x rest h
    match rest with
    | [] => rfl
    | y :: rest' =>
      show reduce_vec f dflt fu (pair_up f (x :: y :: rest')) = _
      have hpu : pair_up f (x :: y :: rest') = f x y :: pair_up f rest' := rfl
      rw [hpu]
      have hlen : (pair_up f rest').length ≤ fu := by
        rw [pair_up_length]
        have : (y :: rest').length ≤ fu + 1 := h
        rw [List.length_cons] at this
        omega
      rw [ih (f x y) (pair_up f rest') hlen, foldl_pair_up f hassoc,
        List.foldl_cons]

/-! ## greater_than (comparison variant A) -/

/-- Shallow embedding of `bits_to_int` inside `Runtime.greater_than`
(`viff/runtime.py`): `sum([2**i * b for i, b in enumerate(bits)])` on a list
of field-element bit shares. -/
def bits_to_int (p : Nat) (bits : List (ZMod p)) : ZMod p :=
  (bits.enum.map (fun ib => ((2 ^ ib.1 : Nat) : ZMod p) * ib.2)).sum

/-- Shallow embedding of `Runtime._finish_greater_than` (`viff/runtime.py`):
from the opened value `T` (its representative `Tval`) and the `GF256`
conversions `bit_bits` of the random bits, build the vector of
`(c_i, T_i) = (xor_bit(b_i, T.bit(i)), T.bit(i))` pairs behind a `(0, 0)`
sentinel, reduce it pairwise with the diamond operator, and xor `T.bit(l)`,
`bit_bits[l]` and the bottom of the reduced pair. -/
def finish_greater_than (Tval : Nat) (bit_bits : List GF256) (l : Nat) : GF256 :=
  let vec : List (GF256 × GF256) :=
    (0, 0) :: ((bit_bits.take l).enum.map (fun ib =>
      (xor_bit ib.2 (bitN (Tval.testBit ib.1)), bitN (Tval.testBit ib.1))))
  let r := reduce_vec diamond (0, 0) vec.length vec
  xor_bit (bitN (Tval.testBit l)) (xor_bit (bit_bits.getD l 0) r.2)

/-- Shallow embedding of `Runtime.greater_than` (`viff/runtime.py`) at the
ideal level over `GF(p)`: `l = 32`, `m = l + 2`, `t = m + 1`; the two
assertions guard the run (`none` models an assertion failure); `bits` lists
the ideal values of the `m` random bits drawn by `prss_share_random`, and
`conv_masks` lists, for each of them, the players' mask bits used by its
`convert_bit_share` call; `int_b` is the integer encoded by the random bits,
`a' = (a - b) + 2^l`, and `T` is the opened value
`(2^t - int_b) + a'`, finished by `_finish_greater_than`. -/
def greater_than (p nplayers : Nat) (a b : ZMod p) (bits : List Bool)
    (conv_masks : List (List Bool)) : Option GF256 :=
  let l := 32
  let m := l + 2
  let t := m + 1
  if 2 ^ (l + 1) + 2 ^ t < p ∧ nplayers + 2 < 2 ^ l then
    let int_bits : List (ZMod p) := bits.map (bitF p)
    let int_b : ZMod p := bits_to_int p int_bits
    let bit_bits : List GF256 :=
      (int_bits.zip conv_masks).map (fun sm => convert_bit_share p sm.1 sm.2)
    let aa : ZMod p := (a - b) + ((2 ^ l : Nat) : ZMod p)
    let T : ZMod p := (((2 ^ t : Nat) : ZMod p) - int_b) + aa
    some (finish_greater_than T.val bit_bits l)
  else none

/-! ## Boolean shadow of the diamond reduction -/

/-- Boolean shadow of the diamond operator on pairs of 0/1-valued `GF256`
elements. -/
def bdiamond (x y : Bool × Bool) : Bool × Bool :=
  (x.1 && y.1, (y.1 && (x.2 ^^ y.2)) ^^ y.2)

theorem diamond_bits (x y : Bool × Bool) :
    diamond (bitN x.1, bitN x.2) (bitN y.1, bitN y.2)
      = (bitN (bdiamond x y).1, bitN (bdiamond x y).2) := by
  rcases x with ⟨a, b⟩
  rcases y with ⟨c, d⟩
  cases a <;> cases b <;> cases c <;> cases d <;> decide

theorem bdiamond_assoc :
    ∀ x y z : Bool × Bool, bdiamond (bdiamond x y) z = bdiamond x (bdiamond y z) := by
  decide

/-- Pair injection from booleans into bit-valued `GF256` pairs. -/
def bit2 (x : Bool × Bool) : GF256 × GF256 := (bitN x.1, bitN x.2)

theorem pair_up_map_hom {α β : Type} (f : α → α → α) (g : β → β → β) (inj : β → α)
    (hfg : ∀ x y, f (inj x) (inj y) = inj (g x y)) :
    ∀ l : List β, pair_up f (l.map inj) = (pair_up g l).map inj := by
  intro l
  induction l using pair_up.induct g with
  | case1 => rfl
  | case2 x => rfl
  | case3 x y rest ih =>
    show pair_up f (inj x :: inj y :: rest.map inj) = _
    show f (inj x) (inj y) :: pair_up f (rest.map inj) = _
    rw [hfg, ih]
    rfl

theorem reduce_vec_map_hom {α β : Type} (f : α → α → α) (g : β → β → β)
    (inj : β → α) (d : β) (hfg : ∀ x y, f (inj x) (inj y) = inj (g x y)) :
    ∀ (fuel : Nat) (l : List β),
      reduce_vec f (inj d) fuel (l.map inj) = inj (reduce_vec g d fuel l) := by
  intro fuel
  induction fuel with
  | zero =>
    intro l
    match l with
    | [] => rfl
    | [x] => rfl
    | x :: y :: rest => rfl
  | succ fu ih =>
    intro l
    match l with
    | [] => rfl
    | [x] => rfl
    | x :: y :: rest =>
      show reduce_vec f (inj d) fu (pair_up f (inj x :: inj y :: rest.map inj))
          = inj (reduce_vec g d fu (pair_up g (x :: y :: rest)))
      have : inj x :: inj y :: rest.map inj = (x :: y :: rest).map inj := rfl
      rw [this, pair_up_map_hom f g inj hfg]
      exact ih _

theorem foldl_bdiamond_fst (g : Bool) :
    ∀ ps : List (Bool × Bool), (ps.foldl bdiamond (false, g)).1 = false := by
  intro ps
  induction ps generalizing g with
  | nil => rfl
  | cons p ps ih =>
    rw [List.foldl_cons]
    have : bdiamond (false, g) p = (false, bif p.1 then g else p.2) := by
      rcases p with ⟨c, T⟩
      cases c <;> cases T <;> cases g <;> decide
    rw [this]
    exact ih _

theorem foldl_bdiamond_snd (g : Bool) :
    ∀ ps : List (Bool × Bool),
      (ps.foldl bdiamond (false, g)).2
        = ps.foldl (fun cin pr => bif pr.1 then cin else pr.2) g := by
  intro ps
  induction ps generalizing g with
  | nil => rfl
  | cons p ps ih =>
    rw [List.foldl_cons, List.foldl_cons]
    have : bdiamond (false, g) p = (false, bif p.1 then g else p.2) := by
      rcases p with ⟨c, T⟩
      cases c <;> cases T <;> cases g <;> decide
    rw [this]
    exact ih _

/-! ## Binary addition carries -/

/-- Carry into bit position `i` when adding `x` and `y` in binary. -/
def addCarry (x y i : Nat) : Bool := decide (2 ^ i ≤ x % 2 ^ i + y % 2 ^ i)

theorem carry_fold_eq (x y : Nat) : ∀ l : Nat,
    (List.range l).foldl
      (fun cin i => bif (y.testBit i ^^ x.testBit i) then cin else x.testBit i)
      false
    = addCarry x y l := by
  intro l
  induction l with
  | zero =>
    simp [addCarry, Nat.mod_one]
  | succ n ih =>
    rw [List.range_succ, List.foldl_append, ih]
    show (bif (y.testBit n ^^ x.testBit n) then addCarry x y n else x.testBit n)
        = addCarry x y (n + 1)
    have hx := mod_pow_succ_eq x n
    have hy := mod_pow_succ_eq y n
    have h2 : (2:Nat) ^ (n + 1) = 2 * 2 ^ n := by ring
    have hxl : x % 2 ^ n < 2 ^ n := Nat.mod_lt _ (Nat.pos_pow_of_pos n (by norm_num))
    have hyl : y % 2 ^ n < 2 ^ n := Nat.mod_lt _ (Nat.pos_pow_of_pos n (by norm_num))
    cases hxb : x.testBit n <;> cases hyb : y.testBit n
    · -- both bits 0: the carry is killed
      rw [hxb] at hx
      rw [hyb] at hy
      simp only [bitN, if_false, Bool.false_eq_true, mul_zero, add_zero] at hx hy
      simp only [Bool.xor_false, cond_false]
      symm
      rw [addCarry, decide_eq_false_iff_not]
      omega
    · -- x bit 0, y bit 1: the carry propagates
      rw [hxb] at hx
      rw [hyb] at hy
      simp only [bitN, if_false, if_true, Bool.false_eq_true, mul_zero, mul_one,
        add_zero] at hx hy
      simp only [Bool.xor_false, Bool.true_xor, Bool.not_false, cond_true]
      rw [addCarry, addCarry, decide_eq_decide]
      omega
    · -- x bit 1, y bit 0: the carry propagates
      rw [hxb] at hx
      rw [hyb] at hy
      simp only [bitN, if_false, if_true, Bool.false_eq_true, mul_zero, mul_one,
        add_zero] at hx hy
      simp only [Bool.xor_true, Bool.false_xor, Bool.not_false, cond_true]
      rw [addCarry, addCarry, decide_eq_decide]
      omega
    · -- both bits 1: a carry is generated
      rw [hxb] at hx
      rw [hyb] at hy
      simp only [bitN, if_true, mul_one] at hx hy
      simp only [Bool.xor_self, cond_false]
      symm
      rw [addCarry, decide_eq_true_iff]
      omega

theorem bit_add_core (K u v : Nat) (bx bv : Bool) (hK : 0 < K)
    (hu : u < K) (hv : v < K) :
    decide (K ≤ (u + K * bitN bx + (v + K * bitN bv)) % (2 * K))
      = (bx ^^ (bv ^^ decide (K ≤ u + v))) := by
  have hbx : bitN bx ≤ 1 := by cases bx <;> simp [bitN]
  have hbv : bitN bv ≤ 1 := by cases bv <;> simp [bitN]
  have hmc := mod_two_mul_cases (u + K * bitN bx + (v + K * bitN bv)) (2 * K)
    (by omega) (by nlinarith)
  rw [hmc]
  by_cases hc : K ≤ u + v
  · have hcd : decide (K ≤ u + v) = true := decide_eq_true hc
    rw [hcd]
    cases bx <;> cases bv <;>
      simp only [bitN, if_true, if_false, Bool.false_eq_true, mul_one, mul_zero,
        add_zero, Bool.xor_true, Bool.xor_false, Bool.true_xor, Bool.false_xor,
        Bool.not_true, Bool.not_false] <;>
      split_ifs <;>
      first
        | (rw [decide_eq_true_iff]; omega)
        | (rw [decide_eq_false_iff_not]; omega)
  · have hcd : decide (K ≤ u + v) = false := decide_eq_false hc
    rw [hcd]
    cases bx <;> cases bv <;>
      simp only [bitN, if_true, if_false, Bool.false_eq_true, mul_one, mul_zero,
        add_zero, Bool.xor_true, Bool.xor_false, Bool.true_xor, Bool.false_xor,
        Bool.not_true, Bool.not_false] <;>
      split_ifs <;>
      first
        | (rw [decide_eq_true_iff]; omega)
        | (rw [decide_eq_false_iff_not]; omega)

/-- Bit `l` of a sum, modulo `2^(l+1)`: it is the xor of the two operand bits
and the carry from the lower positions. -/
theorem decide_bit_add (x y l : Nat) :
    decide (2 ^ l ≤ (x + y) % 2 ^ (l + 1))
      = (x.testBit l ^^ (y.testBit l ^^ addCarry x y l)) := by
  have hx := mod_pow_succ_eq x l
  have hy := mod_pow_succ_eq y l
  have h2 : (2:Nat) ^ (l + 1) = 2 * 2 ^ l := by ring
  have hp : 0 < 2 ^ l := Nat.pos_pow_of_pos l (by norm_num)
  rw [Nat.add_mod, hx, hy, h2, addCarry]
  exact bit_add_core (2 ^ l) (x % 2 ^ l) (y % 2 ^ l) (x.testBit l) (y.testBit l)
    hp (Nat.mod_lt _ hp) (Nat.mod_lt _ hp)

/-! ## Value preservation of the bit conversion -/

theorem foldl_xor_int_bits (p : Nat) :
    ∀ (ms : List Bool) (b : Bool),
      ms.foldl (fun acc mb => xor_int p acc (bitF p mb)) (bitF p b)
        = bitF p (ms.foldl (fun acc mb => Bool.xor acc mb) b) := by
  intro ms
  induction ms with
  | nil => intro b; rfl
  | cons m ms ih =>
    intro b
    rw [List.foldl_cons, List.foldl_cons, xor_int_bits, ih]

theorem foldl_xor_bit_bits :
    ∀ (ms : List Bool) (b : Bool),
      ms.foldl (fun acc mb => xor_bit acc (bitN mb)) (bitN b)
        = bitN (ms.foldl (fun acc mb => Bool.xor acc mb) b) := by
  intro ms
  induction ms with
  | nil => intro b; rfl
  | cons m ms ih =>
    intro b
    rw [List.foldl_cons, List.foldl_cons]
    have : xor_bit (bitN b) (bitN m) = bitN (b ^^ m) := gf256_add_bits b m
    rw [this, ih]

theorem foldl_xor_shift : ∀ (ms : List Bool) (a : Bool),
    ms.foldl (fun acc mb => Bool.xor acc mb) a
      = (a ^^ ms.foldl (fun acc mb => Bool.xor acc mb) false) := by
  intro ms
  induction ms with
  | nil => intro a; simp
  | cons m ms ih =>
    intro a
    rw [List.foldl_cons, List.foldl_cons, ih (a ^^ m), ih (false ^^ m)]
    cases a <;> cases m <;> simp

theorem foldl_xor_cancel (ms : List Bool) (b : Bool) :
    ms.foldl (fun acc mb => Bool.xor acc mb) (ms.foldl (fun acc mb => Bool.xor acc mb) b)
      = b := by
  rw [foldl_xor_shift ms b,
    foldl_xor_shift ms (Bool.xor b (ms.foldl (fun acc mb => Bool.xor acc mb) false))]
  cases b <;> cases ms.foldl (fun acc mb => Bool.xor acc mb) false <;> simp

theorem bitF_val (p : Nat) (hp1 : 1 < p) (b : Bool) :
    (bitF p b).val = bitN b := by
  haveI : NeZero p := ⟨by omega⟩
  haveI : Fact (1 < p) := ⟨hp1⟩
  cases b
  · simp [bitF, bitN]
  · simp [bitF, bitN, ZMod.val_one]

/-- The ideal value of `convert_bit_share` on a 0/1 share is the bit itself,
whatever the players' random mask bits are. -/
theorem convert_bit_share_bits (p : Nat) (hp1 : 1 < p) (bb : Bool)
    (ms : List Bool) :
    convert_bit_share p (bitF p bb) ms = bitN bb := by
  show ms.foldl (fun acc mb => xor_bit acc (bitN mb))
      ((ms.foldl (fun acc mb => xor_int p acc (bitF p mb)) (bitF p bb)).val % 256)
    = bitN bb
  rw [foldl_xor_int_bits]
  have hval : (bitF p (ms.foldl (fun acc mb => Bool.xor acc mb) bb)).val % 256
      = bitN (ms.foldl (fun acc mb => Bool.xor acc mb) bb) := by
    rw [bitF_val p hp1]
    cases ms.foldl (fun acc mb => Bool.xor acc mb) bb <;> simp [bitN]
  rw [hval, foldl_xor_bit_bits, foldl_xor_cancel]

/-! ## Correctness of greater_than (variant A) -/

theorem bits_to_int_enumFrom (p : Nat) : ∀ (bs : List Bool) (k : Nat),
    ((List.enumFrom k (bs.map (bitF p))).map
      (fun ib => ((2 ^ ib.1 : Nat) : ZMod p) * ib.2)).sum
      = ((2 ^ k * bitsToNat bs : Nat) : ZMod p) := by
  intro bs
  induction bs with
  | nil =>
    intro k
    simp [bitsToNat]
  | cons b bs ih =>
    intro k
    rw [List.map_cons, List.enumFrom_cons, List.map_cons, List.sum_cons, ih (k + 1)]
    rw [← bitF_eq_cast_bitN]
    show ((2 ^ k : Nat) : ZMod p) * ((bitN b : Nat) : ZMod p) + _ = _
    rw [show bitsToNat (b :: bs) = bitN b + 2 * bitsToNat bs from rfl]
    push_cast
    ring

theorem bits_to_int_cast (p : Nat) (bs : List Bool) :
    bits_to_int p (bs.map (bitF p)) = ((bitsToNat bs : Nat) : ZMod p) := by
  rw [bits_to_int]
  have he : (bs.map (bitF p)).enum = List.enumFrom 0 (bs.map (bitF p)) := rfl
  rw [he, bits_to_int_enumFrom p bs 0]
  norm_num

theorem finish_greater_than_bits (Tv : Nat) (bs : List Bool) (l : Nat)
    (hlen : l < bs.length) :
    finish_greater_than Tv (bs.map bitN) l
      = bitN (Tv.testBit l
          ^^ (bs.getD l false ^^ addCarry Tv (bitsToNat bs) l)) := by
  have hpairs : ((bs.map bitN).take l).enum.map (fun ib =>
        (xor_bit ib.2 (bitN (Tv.testBit ib.1)), bitN (Tv.testBit ib.1)))
      = (List.range l).map (fun i =>
        bit2 ((bitsToNat bs).testBit i ^^ Tv.testBit i, Tv.testBit i)) := by
    apply List.ext_getElem
    · simp [List.enum_length, List.length_take]
      omega
    · intro n h1 h2
      have hn : n < l := by
        simp only [List.length_map, List.enum_length, List.length_take,
          List.length_range] at h1 h2 ⊢
        omega
      have hnb : n < bs.length := by omega
      have hnb' : n < ((bs.map bitN).take l).length := by
        simp [List.length_take]
        omega
      rw [List.getElem_map, List.getElem_enum, List.getElem_map, List.getElem_range]
      have he : ((bs.map bitN).take l)[n] = bitN bs[n] := by
        rw [List.getElem_take, List.getElem_map]
      rw [he]
      show (xor_bit (bitN bs[n]) (bitN (Tv.testBit n)), bitN (Tv.testBit n))
          = (bitN ((bitsToNat bs).testBit n ^^ Tv.testBit n), bitN (Tv.testBit n))
      rw [xor_bit_bits, testBit_bitsToNat bs n, List.getD_eq_getElem bs false hnb]
  rw [finish_greater_than]
  simp only [hpairs]
  have hvec : (0, 0) :: (List.range l).map (fun i =>
        bit2 ((bitsToNat bs).testBit i ^^ Tv.testBit i, Tv.testBit i))
      = (((false, false) :: (List.range l).map (fun i =>
        ((bitsToNat bs).testBit i ^^ Tv.testBit i, Tv.testBit i))).map bit2) := by
    rw [List.map_cons, List.map_map]
    rfl
  rw [hvec]
  have hhom : ∀ x y, diamond (bit2 x) (bit2 y) = bit2 (bdiamond x y) := by
    intro x y
    exact diamond_bits x y
  have hred : reduce_vec diamond (0, 0)
      ((((false, false) :: (List.range l).map (fun i =>
        ((bitsToNat bs).testBit i ^^ Tv.testBit i, Tv.testBit i))).map bit2)).length
      ((((false, false) :: (List.range l).map (fun i =>
        ((bitsToNat bs).testBit i ^^ Tv.testBit i, Tv.testBit i))).map bit2))
      = bit2 (reduce_vec bdiamond (false, false)
        ((((false, false) :: (List.range l).map (fun i =>
          ((bitsToNat bs).testBit i ^^ Tv.testBit i, Tv.testBit i))).map bit2)).length
        ((false, false) :: (List.range l).map (fun i =>
          ((bitsToNat bs).testBit i ^^ Tv.testBit i, Tv.testBit i)))) :=
    reduce_vec_map_hom diamond bdiamond bit2 (false, false) hhom _ _
  rw [hred]
  have hfold : reduce_vec bdiamond (false, false)
      ((((false, false) :: (List.range l).map (fun i =>
        ((bitsToNat bs).testBit i ^^ Tv.testBit i, Tv.testBit i))).map bit2)).length
      ((false, false) :: (List.range l).map (fun i =>
        ((bitsToNat bs).testBit i ^^ Tv.testBit i, Tv.testBit i)))
      = ((List.range l).map (fun i =>
        ((bitsToNat bs).testBit i ^^ Tv.testBit i, Tv.testBit i))).foldl
          bdiamond (false, false) :=
    reduce_vec_eq_foldl bdiamond (false, false) bdiamond_assoc _ _ _ (by simp)
  rw [hfold]
  have hsnd := foldl_bdiamond_snd false ((List.range l).map (fun i =>
      ((bitsToNat bs).testBit i ^^ Tv.testBit i, Tv.testBit i)))
  rw [show ∀ q : Bool × Bool, (bit2 q).2 = bitN q.2 from fun q => rfl]
  rw [hsnd, List.foldl_map]
  have hcomp : ((List.range l).foldl (fun x y =>
      bif (((bitsToNat bs).testBit y ^^ Tv.testBit y, Tv.testBit y)).1 then x
      else (((bitsToNat bs).testBit y ^^ Tv.testBit y, Tv.testBit y)).2) false)
      = addCarry Tv (bitsToNat bs) l :=
    carry_fold_eq Tv (bitsToNat bs) l
  rw [hcomp]
  have hgl : (bs.map bitN).getD l 0 = bitN (bs.getD l false) := by
    rw [List.getD_eq_getElem _ 0 (by simp; omega), List.getElem_map,
      List.getD_eq_getElem bs false hlen]
  rw [hgl, xor_bit_bits, xor_bit_bits]

theorem greater_than_correct (p n a b : Nat) (bits : List Bool)
    (conv_masks : List (List Bool))
    (hp : 2 ^ 33 + 2 ^ 35 < p) (hn : n + 2 < 2 ^ 32)
    (ha : a < 2 ^ 32) (hb : b < 2 ^ 32)
    (hbits : bits.length = 34) (hmasks : conv_masks.length = 34) :
    greater_than p n ((a : Nat) : ZMod p) ((b : Nat) : ZMod p) bits conv_masks
      = some (bitN (decide (b ≤ a))) := by
  haveI : NeZero p := ⟨by omega⟩
  have hp1 : 1 < p := by omega
  have hcond : 2 ^ (32 + 1) + 2 ^ (32 + 2 + 1) < p ∧ n + 2 < 2 ^ 32 :=
    ⟨by norm_num at hp ⊢; omega, hn⟩
  rw [greater_than]
  simp only [if_pos hcond]
  -- the GF256 conversions of the random bits are the bits themselves
  have hbb : ((bits.map (bitF p)).zip conv_masks).map
        (fun sm => convert_bit_share p sm.1 sm.2)
      = bits.map bitN := by
    apply List.ext_getElem
    · simp [List.length_zip, hbits, hmasks]
    · intro i h1 h2
      have hib : i < bits.length := by
        simp only [List.length_map] at h2
        exact h2
      have hiz : i < ((bits.map (bitF p)).zip conv_masks).length := by
        simpa using h1
      have him : i < conv_masks.length := by omega
      rw [List.getElem_map, List.getElem_zip, List.getElem_map, List.getElem_map]
      exact convert_bit_share_bits p hp1 bits[i] conv_masks[i]
  rw [hbb, bits_to_int_cast]
  -- the opened value T is the plain integer 2^t - int_b + (2^l + a - b)
  set B := bitsToNat bits with hB
  have hBlt : B < 2 ^ 34 := by
    have := bitsToNat_lt bits
    rw [hbits] at this
    exact this
  set Tn : Nat := (2 ^ 35 - B) + ((2 ^ 32 + a) - b) with hTn
  have hble : b ≤ 2 ^ 32 + a := by omega
  have hBle : B ≤ 2 ^ 35 := by omega
  have hTcast : (((2 ^ (32 + 2 + 1) : Nat) : ZMod p) - ((B : Nat) : ZMod p))
      + (((a : Nat) : ZMod p) - ((b : Nat) : ZMod p) + ((2 ^ 32 : Nat) : ZMod p))
      = ((Tn : Nat) : ZMod p) := by
    rw [hTn, Nat.cast_add, Nat.cast_sub hBle, Nat.cast_sub hble]
    push_cast
    ring
  rw [hTcast]
  have hTn_lt : Tn < p := by
    have h35 : (2:Nat) ^ 35 = 34359738368 := by norm_num
    have h34 : (2:Nat) ^ 34 = 17179869184 := by norm_num
    have h33 : (2:Nat) ^ 33 = 8589934592 := by norm_num
    have h32 : (2:Nat) ^ 32 = 4294967296 := by norm_num
    rw [hTn]
    omega
  rw [ZMod.val_cast_of_lt hTn_lt]
  rw [finish_greater_than_bits Tn bits 32 (by omega)]
  -- identify the resulting bit with the comparison a >= b
  have hbit := decide_bit_add Tn B 32
  rw [testBit_bitsToNat bits 32] at hbit
  rw [← hbit]
  have hA : Tn + B = ((2 ^ 32 + a) - b) + 2 ^ 33 * 4 := by
    have h35 : (2:Nat) ^ 35 = 2 ^ 33 * 4 := by norm_num
    rw [hTn]
    omega
  have hA_lt : (2 ^ 32 + a) - b < 2 ^ 33 := by
    have h33 : (2:Nat) ^ 33 = 8589934592 := by norm_num
    have h32 : (2:Nat) ^ 32 = 4294967296 := by norm_num
    omega
  have hmod : (Tn + B) % 2 ^ (32 + 1) = (2 ^ 32 + a) - b := by
    rw [hA]
    have h331 : (2:Nat) ^ (32 + 1) = 2 ^ 33 := by norm_num
    rw [h331, Nat.add_mul_mod_self_left, Nat.mod_eq_of_lt hA_lt]
  rw [hmod]
  have : decide (2 ^ 32 ≤ (2 ^ 32 + a) - b) = decide (b ≤ a) := by
    rw [decide_eq_decide]
    omega
  rw [this]

/-! ## greater_thanII (comparison variant B) -/

/-- Shallow embedding of `Runtime.convert_bit_share_II` (`viff/runtime.py`)
at the ideal level with `src_field = dst_field = GF(p)` (the configuration
used by `greater_thanII_preproc`, which passes `smallField = field`): each
player draws a `this_mask` value (listed in `masks`), shares it in both
fields, the masked share is opened and re-cast into the destination field,
and the sum of the destination masks is subtracted again. -/
def convert_bit_share_II (p : Nat) (share : ZMod p) (masks : List Nat) :
    ZMod p :=
  let src_shares : List (ZMod p) := masks.map (fun m => ((m : Nat) : ZMod p))
  let dst_shares := src_shares
  let tmp : ZMod p := src_shares.foldl (· + ·) share
  let tmpConv : ZMod p := ((tmp.val : Nat) : ZMod p)
  let full_mask : ZMod p :=
    match dst_shares with
    | [] => 0
    | h :: t => t.foldl (· + ·) h
  tmpConv - full_mask

/-- Preprocessing tuple returned by `greater_thanII_preproc`
(`viff/runtime.py`), for the case `smallField = field = GF(p)`; the two
field components of the Python tuple are left implicit in the type. -/
structure GTIIPreproc (p : Nat) where
  s_bit : ZMod p
  s_sign : ZMod p
  mask : ZMod p
  r_full : ZMod p
  r_modl : ZMod p
  r_bits : List (ZMod p)
deriving DecidableEq

/-- Shallow embedding of the weighted-sum loops of `greater_thanII_preproc`:
`acc = 0; for i, b in enumerate(bits): acc = add(acc, mul(b, field(2**i)))`. -/
def weighted_sum (p : Nat) (bs : List (ZMod p)) : ZMod p :=
  bs.enum.foldl (fun acc ib => acc + ib.2 * ((2 ^ ib.1 : Nat) : ZMod p)) 0

/-- The opened value `mask_OK = open(mul(mask, mask_2))` in
`greater_thanII_preproc` (`viff/runtime.py`): it is computed and then
discarded — the code never examines it and never retries the
preprocessing. -/
def greater_thanII_mask_OK (p : Nat) (mask mask_2 : ZMod p) : ZMod p :=
  mask * mask_2

/-- Shallow embedding of `Runtime.greater_thanII_preproc` (`viff/runtime.py`)
with `smallField = field = GF(p)`, at the ideal level: `l` is incremented
before the two field-size assertions (`none` models an assertion failure);
`r_draws` lists the ideal values of the `l+k` random bits, `s_draw` the
random sign bit, `s_conv_masks` the players' mask draws of the
`convert_bit_share_II` call on the sign bit, and `mask`, `mask_2` the two
random field elements whose product is opened into the discarded `mask_OK`.
Since `field is smallField`, the low `l` bit shares are reused unconverted
as `r_bits`. -/
def greater_thanII_preproc (p : Nat) (l0 k : Nat) (r_draws : List Bool)
    (s_draw : Bool) (s_conv_masks : List Nat) (mask mask_2 : ZMod p) :
    Option (GTIIPreproc p) :=
  let l := l0 + 1
  if p > 2 ^ (l + 2) + 2 ^ (l + k) ∧ p > 3 + 3 * l then
    let r_bitsField : List (ZMod p) := r_draws.map (bitF p)
    let r_full : ZMod p := weighted_sum p r_bitsField
    let r_bitsField := r_bitsField.take l
    let r_modl : ZMod p := weighted_sum p r_bitsField
    let r_bits := r_bitsField
    let s_bit : ZMod p := bitF p s_draw
    let s_bitSmallField := convert_bit_share_II p s_bit s_conv_masks
    let s_sign : ZMod p := 1 + s_bitSmallField * (-2)
    some { s_bit := s_bit, s_sign := s_sign, mask := mask,
           r_full := r_full, r_modl := r_modl, r_bits := r_bits }
  else none

/-- Shallow embedding of the multiplication queue at the end of
`_finish_greater_thanII` (`viff/runtime.py`): two elements are popped from
the front and their product is appended at the back until one element
remains.  The `fuel` argument (instantiated with the length of the list,
which always suffices) makes the recursion structural. -/
def mul_queue (p : Nat) : Nat → List (ZMod p) → ZMod p
  | _, [] => 0
  | _, [x] => x
  | 0, x :: _ :: _ => x
  | fuel + 1, x :: y :: rest => mul_queue p fuel (rest ++ [x * y])

theorem mul_queue_eq_prod (p : Nat) :
    ∀ (fuel : Nat) (l : List (ZMod p)), l ≠ [] → l.length ≤ fuel + 1 →
      mul_queue p fuel l = l.prod := by
  intro fuel
  induction fuel with
  | zero =>
    intro l hne hlen
    match l with
    | [x] => simp [mul_queue]
  | succ fu ih =>
    intro l hne hlen
    match l with
    | [x] => simp [mul_queue]
    | x :: y :: rest =>
      show mul_queue p fu (rest ++ [x * y]) = _
      rw [ih (rest ++ [x * y]) (by simp) (by simp at hlen ⊢; omega)]
      rw [List.prod_append, List.prod_cons, List.prod_cons]
      simp
      ring

/-- Shallow embedding of the `sumXORs` table of `_finish_greater_thanII`
(`viff/runtime.py`): entry `i` holds the sum of the xors of the random and
opened bits at the positions strictly above `i` (the code's own loop
invariant: `sumXORs[i] = \sum_{j=i+1}^{l-1} r_j xor c_j`), built here
directly as the suffix sums of the list of xors. -/
def sum_xors (p : Nat) : List (ZMod p) → List (ZMod p)
  | [] => []
  | _ :: t => (t.foldl (· + ·) 0) :: sum_xors p t

/-- Shallow embedding of `Runtime._finish_greater_thanII`
(`viff/runtime.py`): from the opened representative `c` of `r_full + z`,
build the `c` bits in the compact field, the suffix xor sums, the evidence
terms `e_i = s_sign + (r_bits[i] - c_bits[i]) + 3 * sumXORs[i]`, append the
mask and multiply everything with the queue; the opened product is turned
into the 0/1 value `non_zero`, the underflow bit is
`UF = xor_int(non_zero, s_bit)`, and the result is
`(z - (c mod 2^l - r_modl + UF * 2^l)) * (2^l)^-1`. -/
def finish_greater_thanII (p : Nat) (c : Nat) (l : Nat) (pre : GTIIPreproc p)
    (z : ZMod p) : ZMod p :=
  let c_bits : List (ZMod p) :=
    (List.range l).map (fun i => ((bitN (c.testBit i) : Nat) : ZMod p))
  let xors : List (ZMod p) :=
    List.zipWith (fun rb cb => xor_int p rb cb) pre.r_bits c_bits
  let sumXORs := sum_xors p xors
  let E_tilde : List (ZMod p) :=
    (List.range pre.r_bits.length).map (fun i =>
      pre.s_sign + (pre.r_bits.getD i 0 - c_bits.getD i 0)
        + (3 : ZMod p) * (sumXORs.getD i 0))
  let E_full := E_tilde ++ [pre.mask]
  let prodv := mul_queue p E_full.length E_full
  let non_zero : ZMod p := if prodv.val ≠ 0 then 1 else 0
  let UF := xor_int p non_zero pre.s_bit
  let c_mod2l : ZMod p := ((c % 2 ^ l : Nat) : ZMod p)
  let res1 := (c_mod2l - pre.r_modl) + UF * ((2 ^ l : Nat) : ZMod p)
  let res2 := z - res1
  res2 * fieldInv p ((2 ^ l : Nat) : ZMod p)

/-- Shallow embedding of `Runtime.greater_thanII_online` (`viff/runtime.py`):
`l` is incremented, the inputs are doubled and offset (`2a+1`, `2b`) so that
they are never equal, the preprocessing tuple is unpacked and its `r_bits`
length is asserted (`none` models the assertion failure),
`z = (a - b) + 2^l`, `c = open(r_full + z)`, and `_finish_greater_thanII`
concludes. -/
def greater_thanII_online (p : Nat) (a b : ZMod p) (pre : GTIIPreproc p)
    (l0 : Nat) : Option (ZMod p) :=
  let l := l0 + 1
  let sa := (2 : ZMod p) * a + 1
  let sb := (2 : ZMod p) * b
  if l = pre.r_bits.length then
    let z := (sa - sb) + ((2 ^ l : Nat) : ZMod p)
    let c : Nat := (pre.r_full + z).val
    some (finish_greater_thanII p c l pre z)
  else none

/-- Shallow embedding of `Runtime.greater_thanII` (`viff/runtime.py`): the
security parameter is hardcoded to `k = 30`, the preprocessing runs first
(with `smallField = field`), then the online phase. -/
def greater_thanII (p : Nat) (a b : ZMod p) (l0 : Nat) (r_draws : List Bool)
    (s_draw : Bool) (s_conv_masks : List Nat) (mask mask_2 : ZMod p) :
    Option (ZMod p) :=
  match greater_thanII_preproc p l0 30 r_draws s_draw s_conv_masks mask mask_2 with
  | none => none
  | some pre => greater_thanII_online p a b pre l0

/-! ## Helper lemmas for the greater_thanII proof -/

theorem foldl_add_shift (p : Nat) : ∀ (l : List (ZMod p)) (z : ZMod p),
    l.foldl (· + ·) z = z + l.foldl (· + ·) 0 := by
  intro l
  induction l with
  | nil => intro z; simp
  | cons h t ih =>
    intro z
    rw [List.foldl_cons, List.foldl_cons, ih (z + h), ih (0 + h)]
    ring

/-- The ideal value of `convert_bit_share_II` is the input share, whatever
the players' mask draws are. -/
theorem convert_bit_share_II_eq (p : Nat) (hp1 : 0 < p) (x : ZMod p)
    (ms : List Nat) : convert_bit_share_II p x ms = x := by
  haveI : NeZero p := ⟨by omega⟩
  rw [convert_bit_share_II]
  set S : List (ZMod p) := ms.map (fun m => ((m : Nat) : ZMod p)) with hS
  have htmp : S.foldl (· + ·) x = x + S.foldl (· + ·) 0 := foldl_add_shift p S x
  have hmask : (match S with
      | [] => (0 : ZMod p)
      | h :: t => t.foldl (· + ·) h) = S.foldl (· + ·) 0 := by
    match S with
    | [] => rfl
    | h :: t =>
      show t.foldl (· + ·) h = _
      rw [List.foldl_cons, foldl_add_shift p t h, foldl_add_shift p t (0 + h)]
      ring
  rw [htmp, hmask, ZMod.natCast_rightInverse (x + S.foldl (· + ·) 0)]
  ring

theorem weighted_sum_enumFrom (p : Nat) : ∀ (bs : List Bool) (k : Nat) (acc : ZMod p),
    (List.enumFrom k (bs.map (bitF p))).foldl
      (fun acc ib => acc + ib.2 * ((2 ^ ib.1 : Nat) : ZMod p)) acc
      = acc + ((2 ^ k * bitsToNat bs : Nat) : ZMod p) := by
  intro bs
  induction bs with
  | nil =>
    intro k acc
    simp [bitsToNat]
  | cons b bs ih =>
    intro k acc
    rw [List.map_cons, List.enumFrom_cons, List.foldl_cons, ih (k + 1)]
    rw [show bitsToNat (b :: bs) = bitN b + 2 * bitsToNat bs from rfl,
      ← bitF_eq_cast_bitN]
    push_cast
    ring

theorem weighted_sum_bits (p : Nat) (bs : List Bool) :
    weighted_sum p (bs.map (bitF p)) = ((bitsToNat bs : Nat) : ZMod p) := by
  rw [weighted_sum]
  have he : (bs.map (bitF p)).enum = List.enumFrom 0 (bs.map (bitF p)) := rfl
  rw [he, weighted_sum_enumFrom p bs 0 0]
  norm_num

theorem sum_xors_length (p : Nat) :
    ∀ xs : List (ZMod p), (sum_xors p xs).length = xs.length := by
  intro xs
  induction xs with
  | nil => rfl
  | cons x t ih => simp [sum_xors, ih]

theorem sum_xors_getD (p : Nat) :
    ∀ (xs : List (ZMod p)) (i : Nat), i < xs.length →
      (sum_xors p xs).getD i 0 = (xs.drop (i + 1)).foldl (· + ·) 0 := by
  intro xs
  induction xs with
  | nil => intro i h; simp at h
  | cons x t ih =>
    intro i h
    cases i with
    | zero => simp [sum_xors]
    | succ j =>
      have hj : j < t.length := by simpa using h
      show (sum_xors p t).getD j 0 = _
      rw [ih j hj]
      rfl

theorem foldl_bitF_sum (p : Nat) (g : Nat → Bool) : ∀ js : List Nat,
    (js.map (fun j => bitF p (g j))).foldl (· + ·) (0 : ZMod p)
      = (((js.map (fun j => bitN (g j))).sum : Nat) : ZMod p) := by
  intro js
  induction js with
  | nil => simp
  | cons j t ih =>
    rw [List.map_cons, List.foldl_cons, foldl_add_shift, ih, List.map_cons,
      List.sum_cons, ← bitF_eq_cast_bitN]
    push_cast
    ring

theorem sum_bitN_le (g : Nat → Bool) : ∀ js : List Nat,
    (js.map (fun j => bitN (g j))).sum ≤ js.length := by
  intro js
  induction js with
  | nil => simp
  | cons j t ih =>
    rw [List.map_cons, List.sum_cons, List.length_cons]
    have : bitN (g j) ≤ 1 := by cases g j <;> simp [bitN]
    omega

theorem sum_bitN_eq_zero_iff (g : Nat → Bool) (js : List Nat) :
    (js.map (fun j => bitN (g j))).sum = 0 ↔ ∀ j ∈ js, g j = false := by
  rw [List.sum_eq_zero_iff]
  constructor
  · intro h j hj
    have := h (bitN (g j)) (List.mem_map.mpr ⟨j, hj, rfl⟩)
    cases hgj : g j
    · rfl
    · rw [hgj] at this; simp [bitN] at this
  · intro h x hx
    obtain ⟨j, hj, rfl⟩ := List.mem_map.mp hx
    rw [h j hj]
    rfl

theorem mem_range_drop (l k x : Nat) :
    x ∈ (List.range l).drop k ↔ k ≤ x ∧ x < l := by
  constructor
  · intro hx
    obtain ⟨j, hj, hx⟩ := List.mem_iff_getElem.mp hx
    rw [List.getElem_drop, List.getElem_range] at hx
    rw [List.length_drop, List.length_range] at hj
    omega
  · intro ⟨h1, h2⟩
    apply List.mem_iff_getElem.mpr
    refine ⟨x - k, ?_, ?_⟩
    · rw [List.length_drop, List.length_range]
      omega
    · rw [List.getElem_drop, List.getElem_range]
      omega

theorem exists_highest_diff_aux : ∀ (fuel X Y : Nat), X + Y ≤ fuel → X ≠ Y →
    ∃ i, X.testBit i ≠ Y.testBit i ∧ ∀ j, i < j → X.testBit j = Y.testBit j := by
  intro fuel
  induction fuel with
  | zero =>
    intro X Y hf hne
    omega
  | succ f ih =>
    intro X Y hf hne
    by_cases hdiv : X / 2 = Y / 2
    · refine ⟨0, ?_, ?_⟩
      · have hmod : X % 2 ≠ Y % 2 := by omega
        rw [Nat.testBit_zero, Nat.testBit_zero]
        intro hcon
        rw [decide_eq_decide] at hcon
        omega
      · intro j hj
        match j, hj with
        | j + 1, _ =>
          rw [Nat.testBit_succ, Nat.testBit_succ, hdiv]
    · have hpos : 0 < X + Y := by
        rcases Nat.eq_zero_or_pos X with h | h
        · subst h
          rcases Nat.eq_zero_or_pos Y with h' | h'
          · omega
          · omega
        · omega
      obtain ⟨i, hi1, hi2⟩ := ih (X / 2) (Y / 2) (by omega) hdiv
      refine ⟨i + 1, ?_, ?_⟩
      · rw [Nat.testBit_succ, Nat.testBit_succ]
        exact hi1
      · intro j hj
        match j, hj with
        | j + 1, hj =>
          rw [Nat.testBit_succ, Nat.testBit_succ]
          exact hi2 j (by omega)

theorem lt_iff_exists_top_diff (X Y : Nat) :
    Y < X ↔ ∃ i, (∀ j, i < j → X.testBit j = Y.testBit j) ∧
      X.testBit i = true ∧ Y.testBit i = false := by
  constructor
  · intro hlt
    obtain ⟨i, hi1, hi2⟩ := exists_highest_diff_aux (X + Y) X Y le_rfl (by omega)
    have hbits : X.testBit i = true ∧ Y.testBit i = false := by
      cases hX : X.testBit i <;> cases hY : Y.testBit i
      · rw [hX, hY] at hi1; simp at hi1
      · have := Nat.lt_of_testBit i hX hY hi2
        omega
      · exact ⟨rfl, rfl⟩
      · rw [hX, hY] at hi1; simp at hi1
    exact ⟨i, hi2, hbits.1, hbits.2⟩
  · intro ⟨i, heq, hX, hY⟩
    exact Nat.lt_of_testBit i hY hX (fun j hj => (heq j hj).symm)

theorem top_diff_bounded (l X Y : Nat) (hX : X < 2 ^ l) (hY : Y < 2 ^ l) :
    Y < X ↔ ∃ i, i < l ∧ (∀ j, i < j → X.testBit j = Y.testBit j) ∧
      X.testBit i = true ∧ Y.testBit i = false := by
  rw [lt_iff_exists_top_diff]
  constructor
  · intro ⟨i, heq, hXb, hYb⟩
    refine ⟨i, ?_, heq, hXb, hYb⟩
    by_contra hil
    push_neg at hil
    have hXf : X.testBit i = false :=
      Nat.testBit_lt_two_pow
        (lt_of_lt_of_le hX (Nat.pow_le_pow_right (by norm_num) hil))
    rw [hXf] at hXb
    exact absurd hXb (by simp)
  · intro ⟨i, _, heq, hXb, hYb⟩
    exact ⟨i, heq, hXb, hYb⟩

/-- Suffix xor count used in the analysis of `_finish_greater_thanII`: the
number of positions strictly above `i` (and below `l`) where the bits of `R`
and `c` differ. -/
def gtII_S (l R c i : Nat) : Nat :=
  (((List.range l).drop (i + 1)).map (fun j =>
    bitN (Bool.xor (R.testBit j) (c.testBit j)))).sum

/-- Integer value of the evidence term `e_i` of `_finish_greater_thanII`. -/
def gtII_e (l R c : Nat) (sd : Bool) (i : Nat) : Int :=
  (1 - 2 * (bitN sd : Int))
    + ((bitN (R.testBit i) : Int) - (bitN (c.testBit i) : Int))
    + 3 * (gtII_S l R c i : Int)

theorem gtII_S_zero_iff (l R c i : Nat) :
    gtII_S l R c i = 0
      ↔ ∀ j, i < j → (c % 2 ^ l).testBit j = (R % 2 ^ l).testBit j := by
  rw [gtII_S, sum_bitN_eq_zero_iff]
  have hXbit : ∀ j, (c % 2 ^ l).testBit j = (decide (j < l) && c.testBit j) :=
    fun j => Nat.testBit_mod_two_pow c l j
  have hYbit : ∀ j, (R % 2 ^ l).testBit j = (decide (j < l) && R.testBit j) :=
    fun j => Nat.testBit_mod_two_pow R l j
  constructor
  · intro h j hj
    by_cases hjl : j < l
    · have hgj := h j ((mem_range_drop l (i + 1) j).mpr (by omega))
      have : R.testBit j = c.testBit j := by
        cases hR : R.testBit j <;> cases hc : c.testBit j <;>
          rw [hR, hc] at hgj <;> first | rfl | (exact absurd hgj (by decide))
      rw [hXbit j, hYbit j, this]
    · rw [hXbit j, hYbit j]
      have : decide (j < l) = false := by simp [hjl]
      rw [this]
      simp
  · intro h j hjmem
    rw [mem_range_drop] at hjmem
    have hx := h j (by omega)
    rw [hXbit j, hYbit j] at hx
    have hd : decide (j < l) = true := by simp [hjmem.2]
    rw [hd] at hx
    simp only [Bool.true_and] at hx
    rw [hx]
    cases R.testBit j <;> rfl

theorem gtII_S_le (l R c i : Nat) : gtII_S l R c i + i + 1 ≤ l ∨ gtII_S l R c i = 0 := by
  by_cases hil : i + 1 ≤ l
  · left
    have := sum_bitN_le (fun j => Bool.xor (R.testBit j) (c.testBit j))
      ((List.range l).drop (i + 1))
    rw [List.length_drop, List.length_range] at this
    rw [gtII_S]
    omega
  · right
    rw [gtII_S]
    have : (List.range l).drop (i + 1) = [] := by
      apply List.eq_nil_of_length_eq_zero
      rw [List.length_drop, List.length_range]
      omega
    rw [this]
    rfl

theorem gtII_exists_zero_iff (l R c : Nat) (sd : Bool) (hl : 0 < l) :
    (∃ i, i < l ∧ gtII_e l R c sd i = 0)
      ↔ (if sd then c % 2 ^ l < R % 2 ^ l else R % 2 ^ l < c % 2 ^ l) := by
  have hM : 0 < 2 ^ l := Nat.pos_pow_of_pos l (by norm_num)
  have hXlt : c % 2 ^ l < 2 ^ l := Nat.mod_lt _ hM
  have hYlt : R % 2 ^ l < 2 ^ l := Nat.mod_lt _ hM
  have hXbit : ∀ j, j < l → (c % 2 ^ l).testBit j = c.testBit j := by
    intro j hj
    rw [Nat.testBit_mod_two_pow]
    simp [hj]
  have hYbit : ∀ j, j < l → (R % 2 ^ l).testBit j = R.testBit j := by
    intro j hj
    rw [Nat.testBit_mod_two_pow]
    simp [hj]
  cases sd
  · -- sign bit 0: a zero evidence term means c% > r%
    rw [if_neg (by simp)]
    rw [top_diff_bounded l (c % 2 ^ l) (R % 2 ^ l) hXlt hYlt]
    constructor
    · intro ⟨i, hil, hez⟩
      have hparts : gtII_S l R c i = 0 ∧ R.testBit i = false ∧ c.testBit i = true := by
        have hSnn : (0 : Int) ≤ (gtII_S l R c i : Int) := by positivity
        cases hR : R.testBit i <;> cases hc : c.testBit i <;>
          rw [gtII_e, hR, hc] at hez <;>
          simp only [bitN, if_true, if_false, Bool.false_eq_true] at hez <;>
          push_cast at hez <;>
          first
            | (refine ⟨?_, rfl, rfl⟩; omega)
            | (exfalso; omega)
      refine ⟨i, hil, (gtII_S_zero_iff l R c i).mp hparts.1, ?_, ?_⟩
      · rw [hXbit i hil]
        exact hparts.2.2
      · rw [hYbit i hil]
        exact hparts.2.1
    · intro ⟨i, hil, heq, hXb, hYb⟩
      refine ⟨i, hil, ?_⟩
      have hS0 : gtII_S l R c i = 0 := (gtII_S_zero_iff l R c i).mpr heq
      have hcb : c.testBit i = true := by rw [← hXbit i hil]; exact hXb
      have hRb : R.testBit i = false := by rw [← hYbit i hil]; exact hYb
      rw [gtII_e, hS0, hcb, hRb]
      simp [bitN]
  · -- sign bit 1: a zero evidence term means c% < r%
    rw [if_pos (by simp)]
    rw [top_diff_bounded l (R % 2 ^ l) (c % 2 ^ l) hYlt hXlt]
    constructor
    · intro ⟨i, hil, hez⟩
      have hparts : gtII_S l R c i = 0 ∧ R.testBit i = true ∧ c.testBit i = false := by
        have hSnn : (0 : Int) ≤ (gtII_S l R c i : Int) := by positivity
        cases hR : R.testBit i <;> cases hc : c.testBit i <;>
          rw [gtII_e, hR, hc] at hez <;>
          simp only [bitN, if_true, if_false, Bool.false_eq_true] at hez <;>
          push_cast at hez <;>
          first
            | (refine ⟨?_, rfl, rfl⟩; omega)
            | (exfalso; omega)
      refine ⟨i, hil, ?_, ?_, ?_⟩
      · intro j hj
        exact ((gtII_S_zero_iff l R c i).mp hparts.1 j hj).symm
      · rw [hYbit i hil]
        exact hparts.2.1
      · rw [hXbit i hil]
        exact hparts.2.2
    · intro ⟨i, hil, heq, hYb, hXb⟩
      refine ⟨i, hil, ?_⟩
      have hS0 : gtII_S l R c i = 0 :=
        (gtII_S_zero_iff l R c i).mpr (fun j hj => (heq j hj).symm)
      have hcb : c.testBit i = false := by rw [← hXbit i hil]; exact hXb
      have hRb : R.testBit i = true := by rw [← hYbit i hil]; exact hYb
      rw [gtII_e, hS0, hcb, hRb]
      simp [bitN]

theorem finish_greater_thanII_correct (p l R zn : Nat) (hp : p.Prime)
    (mask : ZMod p) (sd : Bool) (rb : List Bool)
    (hl : 0 < l) (hrb : rb.length = l)
    (hRbits : ∀ i, i < l → rb.getD i false = R.testBit i)
    (hzodd : zn % 2 = 1) (hznlt : zn < 2 ^ (l + 1))
    (hq : 3 + 3 * l < p) (hmask : mask ≠ 0) :
    finish_greater_thanII p (R + zn) l
      { s_bit := bitF p sd, s_sign := 1 + bitF p sd * (-2), mask := mask,
        r_full := ((R : Nat) : ZMod p), r_modl := ((R % 2 ^ l : Nat) : ZMod p),
        r_bits := rb.map (bitF p) } ((zn : Nat) : ZMod p)
      = bitF p (decide (2 ^ l ≤ zn)) := by
  haveI hFact : Fact p.Prime := ⟨hp⟩
  haveI : NeZero p := ⟨hp.ne_zero⟩
  simp only [finish_greater_thanII]
  rw [List.length_map, hrb]
  set c : Nat := R + zn with hc
  have hM : 0 < 2 ^ l := Nat.pos_pow_of_pos l (by norm_num)
  set X : Nat := c % 2 ^ l with hXd
  set Y : Nat := R % 2 ^ l with hYd
  -- the xor list
  have hxors : List.zipWith (fun rbv cbv => xor_int p rbv cbv) (rb.map (bitF p))
      ((List.range l).map (fun i => ((bitN (c.testBit i) : Nat) : ZMod p)))
      = (List.range l).map (fun j => bitF p (Bool.xor (R.testBit j) (c.testBit j))) := by
    apply List.ext_getElem
    · simp [hrb]
    · intro n h1 h2
      have hn : n < l := by simpa using h2
      rw [List.getElem_zipWith, List.getElem_map, List.getElem_map,
        List.getElem_range]
      rw [bitF_eq_cast_bitN]
      have hnrb : n < rb.length := by omega
      have hrn : rb[n] = R.testBit n := by
        rw [← List.getD_eq_getElem rb false hnrb]
        exact hRbits n hn
      rw [hrn, xor_int_bits, List.getElem_map, List.getElem_range]
  simp only [hxors]
  -- the evidence terms as integer casts
  have hEL : (List.range l).map (fun i =>
        1 + bitF p sd * -2 +
          ((rb.map (bitF p)).getD i 0 -
            ((List.range l).map (fun i => ((bitN (c.testBit i) : Nat) : ZMod p))).getD i 0) +
          3 * (sum_xors p ((List.range l).map
              (fun j => bitF p (Bool.xor (R.testBit j) (c.testBit j))))).getD i 0)
      = (List.range l).map (fun i => ((gtII_e l R c sd i : Int) : ZMod p)) := by
    apply List.map_congr_left
    intro i hi
    have hil : i < l := List.mem_range.mp hi
    have hg1 : (rb.map (bitF p)).getD i 0 = bitF p (R.testBit i) := by
      rw [List.getD_eq_getElem _ 0 (by simp [hrb]; omega), List.getElem_map,
        ← List.getD_eq_getElem rb false (by omega), hRbits i hil]
    have hg2 : ((List.range l).map
        (fun i => ((bitN (c.testBit i) : Nat) : ZMod p))).getD i 0
        = bitF p (c.testBit i) := by
      rw [List.getD_eq_getElem _ 0 (by simp; omega), List.getElem_map,
        List.getElem_range, bitF_eq_cast_bitN]
    have hg3 : (sum_xors p ((List.range l).map
        (fun j => bitF p (Bool.xor (R.testBit j) (c.testBit j))))).getD i 0
        = ((gtII_S l R c i : Nat) : ZMod p) := by
      rw [sum_xors_getD p _ i (by simp; omega), ← List.map_drop, foldl_bitF_sum, gtII_S]
    rw [hg1, hg2, hg3, gtII_e, ← bitF_eq_cast_bitN, ← bitF_eq_cast_bitN,
      ← bitF_eq_cast_bitN]
    push_cast
    ring
  rw [hEL]
  -- the multiplication queue computes the product
  rw [mul_queue_eq_prod p _ _ (by simp) (by simp)]
  rw [List.prod_append, List.prod_singleton]
  -- the product is zero exactly when some evidence term vanishes
  have hqz : (3 : Int) + 3 * l < p := by exact_mod_cast hq
  have hcast_zero : ∀ i, i < l → ((((gtII_e l R c sd i : Int)) : ZMod p) = 0
      ↔ gtII_e l R c sd i = 0) := by
    intro i hil
    rw [ZMod.intCast_zmod_eq_zero_iff_dvd]
    constructor
    · intro hdvd
      refine Int.eq_zero_of_abs_lt_dvd hdvd ?_
      have hSb : gtII_S l R c i ≤ l := by
        rcases gtII_S_le l R c i with h | h <;> omega
      have hSbz : (gtII_S l R c i : Int) ≤ l := by exact_mod_cast hSb
      have hSnn : (0 : Int) ≤ (gtII_S l R c i : Int) := by positivity
      have h1 : (bitN sd : Int) ≤ 1 := by cases sd <;> simp [bitN]
      have h2 : (0 : Int) ≤ (bitN sd : Int) := by positivity
      have h3 : (bitN (R.testBit i) : Int) ≤ 1 := by cases R.testBit i <;> simp [bitN]
      have h4 : (0 : Int) ≤ (bitN (R.testBit i) : Int) := by positivity
      have h5 : (bitN (c.testBit i) : Int) ≤ 1 := by cases c.testBit i <;> simp [bitN]
      have h6 : (0 : Int) ≤ (bitN (c.testBit i) : Int) := by positivity
      rw [gtII_e]
      rw [abs_lt]
      constructor <;> omega
    · intro h0
      rw [h0]
      exact dvd_zero _
  have hprod_zero : ((List.range l).map
      (fun i => ((gtII_e l R c sd i : Int) : ZMod p))).prod = 0
      ↔ (if sd then X < Y else Y < X) := by
    rw [List.prod_eq_zero_iff]
    rw [← gtII_exists_zero_iff l R c sd hl]
    constructor
    · intro hmem
      obtain ⟨i, hi, hzero⟩ := List.mem_map.mp hmem
      have hil : i < l := List.mem_range.mp hi
      exact ⟨i, hil, (hcast_zero i hil).mp hzero⟩
    · intro ⟨i, hil, hzero⟩
      apply List.mem_map.mpr
      exact ⟨i, List.mem_range.mpr hil, (hcast_zero i hil).mpr hzero⟩
  -- X and Y differ because zn is odd
  have hwlt : zn % 2 ^ l < 2 ^ l := Nat.mod_lt _ hM
  have hYlt : Y < 2 ^ l := Nat.mod_lt _ hM
  have hXw : X = (Y + zn % 2 ^ l) % 2 ^ l := by
    rw [hXd, hc, Nat.add_mod]
  have hXY : X ≠ Y := by
    intro heq
    have hcases := mod_two_mul_cases (Y + zn % 2 ^ l) (2 ^ l) hM (by omega)
    rw [hXw, hcases] at heq
    have hzn0 : zn % 2 ^ l = 0 := by
      split_ifs at heq <;> omega
    have h2dvd : 2 ∣ zn := by
      have hl2 : (2 : Nat) ∣ 2 ^ l := dvd_pow_self 2 (by omega)
      exact dvd_trans hl2 (Nat.dvd_of_mod_eq_zero hzn0)
    omega
  -- the underflow bit
  have hifc : (if sd = true then X < Y else Y < X)
      ↔ ((bif sd then decide (X < Y) else decide (Y < X)) = true) := by
    cases sd <;> simp
  have hnz : (if ((((List.range l).map
        (fun i => ((gtII_e l R c sd i : Int) : ZMod p))).prod * mask).val ≠ 0)
        then (1 : ZMod p) else 0)
      = bitF p (!(bif sd then decide (X < Y) else decide (Y < X))) := by
    by_cases hqq : (bif sd then decide (X < Y) else decide (Y < X)) = true
    · rw [if_neg, hqq, bitF]
      · simp
      · intro hne
        apply hne
        rw [ZMod.val_eq_zero, mul_eq_zero]
        left
        exact hprod_zero.mpr (hifc.mpr hqq)
    · have hqf : (bif sd then decide (X < Y) else decide (Y < X)) = false := by
        cases hb : (bif sd then decide (X < Y) else decide (Y < X))
        · rfl
        · exact absurd hb hqq
      rw [if_pos, hqf, bitF]
      · simp
      · rw [Ne, ZMod.val_eq_zero, mul_eq_zero]
        intro hor
        rcases hor with h | h
        · exact hqq (hifc.mp (hprod_zero.mp h))
        · exact hmask h
  rw [hnz, xor_int_bits]
  -- the underflow bit is the borrow X < Y
  have hUF : (Bool.xor (!(bif sd then decide (X < Y) else decide (Y < X))) sd)
      = decide (X < Y) := by
    cases sd
    · simp only [cond_false, Bool.xor_false]
      rw [← decide_not, decide_eq_decide]
      omega
    · simp only [cond_true, Bool.xor_true, Bool.not_not]
  rw [hUF]
  -- arithmetic: the masked difference reconstructs zn mod 2^l
  have hkey : ((X : Int) - Y) + (bitN (decide (X < Y)) : Int) * (2 ^ l : Int)
      = ((zn % 2 ^ l : Nat) : Int) := by
    have hcases := mod_two_mul_cases (Y + zn % 2 ^ l) (2 ^ l) hM (by omega)
    rw [hXw, hcases]
    split_ifs with hcase
    · have hnb : ¬ (Y + zn % 2 ^ l < Y) := by omega
      rw [decide_eq_false hnb]
      simp [bitN]
    · have hb : Y + zn % 2 ^ l - 2 ^ l < Y := by omega
      rw [decide_eq_true hb]
      simp only [bitN, if_true]
      push_cast [Nat.cast_sub (show 2 ^ l ≤ Y + zn % 2 ^ l by omega)]
      ring
  have hres1 : ((X : Nat) : ZMod p) - ((Y : Nat) : ZMod p)
      + bitF p (decide (X < Y)) * ((2 ^ l : Nat) : ZMod p)
      = ((zn % 2 ^ l : Nat) : ZMod p) := by
    rw [← bitF_eq_cast_bitN]
    calc ((X : Nat) : ZMod p) - ((Y : Nat) : ZMod p)
        + ((bitN (decide (X < Y)) : Nat) : ZMod p) * ((2 ^ l : Nat) : ZMod p)
        = ((((X : Int) - Y) + (bitN (decide (X < Y)) : Int) * (2 ^ l : Int) : Int) : ZMod p) := by
          push_cast
          ring
      _ = ((((zn % 2 ^ l : Nat) : Int)) : ZMod p) := by rw [hkey]
      _ = ((zn % 2 ^ l : Nat) : ZMod p) := by norm_cast
  rw [hres1]
  -- conclude: (zn - zn mod 2^l) / 2^l is the comparison bit
  have hsub : ((zn : Nat) : ZMod p) - ((zn % 2 ^ l : Nat) : ZMod p)
      = ((2 ^ l * (zn / 2 ^ l) : Nat) : ZMod p) := by
    rw [← Nat.cast_sub (Nat.mod_le zn (2 ^ l))]
    congr 1
    have := Nat.div_add_mod zn (2 ^ l)
    omega
  rw [hsub]
  have hq2 : zn / 2 ^ l = bitN (decide (2 ^ l ≤ zn)) := by
    by_cases hzl : 2 ^ l ≤ zn
    · have h1 : 1 ≤ zn / 2 ^ l := (Nat.le_div_iff_mul_le hM).mpr (by omega)
      have h2 : zn / 2 ^ l < 2 := by
        apply (Nat.div_lt_iff_lt_mul hM).mpr
        have hpow : (2 : Nat) ^ (l + 1) = 2 ^ l * 2 := by ring
        omega
      rw [decide_eq_true hzl]
      simp [bitN]
      omega
    · rw [Nat.div_eq_of_lt (by omega), decide_eq_false hzl]
      simp [bitN]
  rw [hq2]
  have hne2l : ((2 ^ l : Nat) : ZMod p) ≠ 0 := by
    rw [Ne, ZMod.natCast_zmod_eq_zero_iff_dvd]
    intro hdvd
    have h2 : p ∣ 2 := hp.dvd_of_dvd_pow hdvd
    have := Nat.le_of_dvd (by norm_num) h2
    omega
  have hcancel : ((2 ^ l : Nat) : ZMod p) * fieldInv p ((2 ^ l : Nat) : ZMod p) = 1 :=
    mul_fieldInv_cancel p hp _ hne2l
  calc ((2 ^ l * bitN (decide (2 ^ l ≤ zn)) : Nat) : ZMod p)
        * fieldInv p ((2 ^ l : Nat) : ZMod p)
      = ((bitN (decide (2 ^ l ≤ zn)) : Nat) : ZMod p)
        * (((2 ^ l : Nat) : ZMod p) * fieldInv p ((2 ^ l : Nat) : ZMod p)) := by
        push_cast
        ring
    _ = ((bitN (decide (2 ^ l ≤ zn)) : Nat) : ZMod p) := by rw [hcancel, mul_one]
    _ = bitF p (decide (2 ^ l ≤ zn)) := bitF_eq_cast_bitN p _

theorem greater_thanII_correct (p l0 a b : Nat) (r_draws : List Bool)
    (sd : Bool) (s_conv_masks : List Nat) (mask mask_2 : ZMod p)
    (hp : p.Prime)
    (hbound : 2 ^ (l0 + 3) + 2 ^ (l0 + 31) < p)
    (ha : a < 2 ^ l0) (hb : b < 2 ^ l0)
    (hlen : r_draws.length = l0 + 31)
    (hmask : mask ≠ 0) :
    greater_thanII p ((a : Nat) : ZMod p) ((b : Nat) : ZMod p) l0 r_draws sd
      s_conv_masks mask mask_2 = some (bitF p (decide (b ≤ a))) := by
  have hpow0 : (2:Nat) ^ (l0 + 1) = 2 * 2 ^ l0 := by rw [pow_succ]; ring
  have hpow2 : (2:Nat) ^ (l0 + 2) = 4 * 2 ^ l0 := by rw [pow_add]; ring
  have hpow3 : (2:Nat) ^ (l0 + 3) = 8 * 2 ^ l0 := by rw [pow_add]; ring
  have h2l : l0 < 2 ^ l0 := Nat.lt_two_pow l0
  have hd31 : 0 < (2:Nat) ^ (l0 + 31) := pow_pos (by norm_num) _
  have hq : 3 + 3 * (l0 + 1) < p := by omega
  have hguard : p > 2 ^ (l0 + 1 + 2) + 2 ^ (l0 + 1 + 30) ∧ p > 3 + 3 * (l0 + 1) := by
    constructor
    · have e1 : l0 + 1 + 2 = l0 + 3 := by omega
      have e2 : l0 + 1 + 30 = l0 + 31 := by omega
      rw [e1, e2]
      omega
    · omega
  set R : Nat := bitsToNat r_draws with hR
  have hpre : greater_thanII_preproc p l0 30 r_draws sd s_conv_masks mask mask_2
      = some { s_bit := bitF p sd, s_sign := 1 + bitF p sd * (-2), mask := mask,
               r_full := ((R : Nat) : ZMod p),
               r_modl := ((R % 2 ^ (l0 + 1) : Nat) : ZMod p),
               r_bits := (r_draws.take (l0 + 1)).map (bitF p) } := by
    simp only [greater_thanII_preproc]
    rw [if_pos hguard]
    have h1 : convert_bit_share_II p (bitF p sd) s_conv_masks = bitF p sd :=
      convert_bit_share_II_eq p (by omega) _ _
    have h2 : weighted_sum p (r_draws.map (bitF p)) = ((R : Nat) : ZMod p) :=
      weighted_sum_bits p r_draws
    have h3 : (r_draws.map (bitF p)).take (l0 + 1)
        = (r_draws.take (l0 + 1)).map (bitF p) := (List.map_take _ _ _).symm
    have h4 : weighted_sum p ((r_draws.take (l0 + 1)).map (bitF p))
        = ((bitsToNat (r_draws.take (l0 + 1)) : Nat) : ZMod p) :=
      weighted_sum_bits p _
    have h5 : bitsToNat (r_draws.take (l0 + 1)) = R % 2 ^ (l0 + 1) :=
      (bitsToNat_mod r_draws (l0 + 1)).symm
    rw [h1, h2, h3, h4, h5]
  rw [greater_thanII, hpre]
  simp only [greater_thanII_online]
  have hlen2 : ((r_draws.take (l0 + 1)).map (bitF p)).length = l0 + 1 := by
    rw [List.length_map, List.length_take, hlen]
    omega
  rw [if_pos hlen2.symm]
  set zn : Nat := 2 ^ (l0 + 1) + 2 * a + 1 - 2 * b with hzn
  have hzcast : ((2 : ZMod p) * ((a : Nat) : ZMod p) + 1
      - (2 : ZMod p) * ((b : Nat) : ZMod p)) + ((2 ^ (l0 + 1) : Nat) : ZMod p)
      = ((zn : Nat) : ZMod p) := by
    rw [hzn, Nat.cast_sub (by omega)]
    push_cast
    ring
  rw [hzcast]
  have hRlt : R < 2 ^ (l0 + 31) := by
    have := bitsToNat_lt r_draws
    rw [hlen] at this
    exact this
  have hcval : (((R : Nat) : ZMod p) + ((zn : Nat) : ZMod p)).val = R + zn := by
    rw [← Nat.cast_add, ZMod.val_cast_of_lt (by omega)]
  rw [hcval]
  have hfin := finish_greater_thanII_correct p (l0 + 1) R zn hp mask sd
    (r_draws.take (l0 + 1)) (by omega)
    (by rw [List.length_take, hlen]; omega)
    (by
      intro i hi
      rw [List.getD_eq_getElem _ false (by rw [List.length_take, hlen]; omega),
        List.getElem_take, hR, testBit_bitsToNat,
        List.getD_eq_getElem _ false (by rw [hlen]; omega)])
    (by omega)
    (by
      have := hpow0
      have e : (2:Nat) ^ (l0 + 1 + 1) = 2 * 2 ^ (l0 + 1) := by rw [pow_succ]; ring
      omega)
    hq hmask
  rw [hfin]
  have hfinal : decide (2 ^ (l0 + 1) ≤ zn) = decide (b ≤ a) := by
    rw [decide_eq_decide]
    omega
  rw [hfinal]

/-- Lucas primality certificate for `75161927681 = 35 * 2^31 + 1`, a prime
large enough for the field-size precondition of `greater_thanII` at input
bit-length 1 (the exponentiations are checked by the kernel through the
binary `powAux`). -/
theorem prime_75161927681 : Nat.Prime 75161927681 := by
  have ha : (3 : ZMod 75161927681) ^ (75161927681 - 1) = 1 := by
    rw [← powAux_eq_pow 75161927681 64 3 (75161927681 - 1) (by norm_num)]
    decide
  have h2 : (3 : ZMod 75161927681) ^ ((75161927681 - 1) / 2) ≠ 1 := by
    rw [← powAux_eq_pow 75161927681 64 3 ((75161927681 - 1) / 2) (by norm_num)]
    decide
  have h5 : (3 : ZMod 75161927681) ^ ((75161927681 - 1) / 5) ≠ 1 := by
    rw [← powAux_eq_pow 75161927681 64 3 ((75161927681 - 1) / 5) (by norm_num)]
    decide
  have h7 : (3 : ZMod 75161927681) ^ ((75161927681 - 1) / 7) ≠ 1 := by
    rw [← powAux_eq_pow 75161927681 64 3 ((75161927681 - 1) / 7) (by norm_num)]
    decide
  refine lucas_primality 75161927681 3 ha ?_
  intro q hq hdvd
  have hfac : (75161927681 - 1 : Nat) = 2 ^ 31 * (5 * 7) := by norm_num
  rw [hfac] at hdvd
  rcases (Nat.Prime.dvd_mul hq).mp hdvd with h | h
  · have h2d : q ∣ 2 := Nat.Prime.dvd_of_dvd_pow hq h
    have hq2 : q = 2 := (Nat.prime_dvd_prime_iff_eq hq Nat.prime_two).mp h2d
    subst hq2
    exact h2
  · rcases (Nat.Prime.dvd_mul hq).mp h with h' | h'
    · have hq5 : q = 5 := (Nat.prime_dvd_prime_iff_eq hq (by norm_num)).mp h'
      subst hq5
      exact h5
    · have hq7 : q = 7 := (Nat.prime_dvd_prime_iff_eq hq (by norm_num)).mp h'
      subst hq7
      exact h7

/-- Lucas primality certificate for `3221225473 = 3 * 2^30 + 1`, a prime
lying strictly between the field bound claimed for the caller-supplied
bit-length and the bound the code actually asserts after incrementing it. -/
theorem prime_3221225473 : Nat.Prime 3221225473 := by
  have ha : (5 : ZMod 3221225473) ^ (3221225473 - 1) = 1 := by
    rw [← powAux_eq_pow 3221225473 64 5 (3221225473 - 1) (by norm_num)]
    decide
  have h2 : (5 : ZMod 3221225473) ^ ((3221225473 - 1) / 2) ≠ 1 := by
    rw [← powAux_eq_pow 3221225473 64 5 ((3221225473 - 1) / 2) (by norm_num)]
    decide
  have h3 : (5 : ZMod 3221225473) ^ ((3221225473 - 1) / 3) ≠ 1 := by
    rw [← powAux_eq_pow 3221225473 64 5 ((3221225473 - 1) / 3) (by norm_num)]
    decide
  refine lucas_primality 3221225473 5 ha ?_
  intro q hq hdvd
  have hfac : (3221225473 - 1 : Nat) = 2 ^ 30 * 3 := by norm_num
  rw [hfac] at hdvd
  rcases (Nat.Prime.dvd_mul hq).mp hdvd with h | h
  · have h2d : q ∣ 2 := Nat.Prime.dvd_of_dvd_pow hq h
    have hq2 : q = 2 := (Nat.prime_dvd_prime_iff_eq hq Nat.prime_two).mp h2d
    subst hq2
    exact h2
  · have hq3 : q = 3 := (Nat.prime_dvd_prime_iff_eq hq Nat.prime_three).mp h
    subst hq3
    exact h3

/-- C1 (amended): for inputs `a, b < 2^l`, variant A (`greater_than`,
`l = 32`) always opens to the 0/1 indicator of `a ≥ b` under its field-size
precondition, and variant B (`greater_thanII`) opens to the indicator of
`a ≥ b` under its field-size precondition PROVIDED the drawn compact-field
mask is nonzero — the original claim is wrong for variant B because a zero
mask draw is not retried (see the counterexample). -/
theorem claim_C1_amended :
    (∀ (p n a b : Nat) (bits : List Bool) (conv_masks : List (List Bool)),
      2 ^ 33 + 2 ^ 35 < p → n + 2 < 2 ^ 32 → a < 2 ^ 32 → b < 2 ^ 32 →
      bits.length = 34 → conv_masks.length = 34 →
      greater_than p n ((a : Nat) : ZMod p) ((b : Nat) : ZMod p) bits conv_masks
        = some (bitN (decide (b ≤ a)))) ∧
    (∀ (p l0 a b : Nat) (r_draws : List Bool) (sd : Bool)
      (s_conv_masks : List Nat) (mask mask_2 : ZMod p),
      p.Prime → 2 ^ (l0 + 3) + 2 ^ (l0 + 31) < p →
      a < 2 ^ l0 → b < 2 ^ l0 → r_draws.length = l0 + 31 → mask ≠ 0 →
      greater_thanII p ((a : Nat) : ZMod p) ((b : Nat) : ZMod p) l0 r_draws sd
        s_conv_masks mask mask_2 = some (bitF p (decide (b ≤ a)))) := by
  constructor
  · intro p n a b bits conv_masks hp hn ha hb hbits hmasks
    exact greater_than_correct p n a b bits conv_masks hp hn ha hb hbits hmasks
  · intro p l0 a b r_draws sd s_conv_masks mask mask_2 hp hbound ha hb hlen hmask
    exact greater_thanII_correct p l0 a b r_draws sd s_conv_masks mask mask_2
      hp hbound ha hb hlen hmask

/-- C1 witness: both conjuncts of the amended claim evaluated at concrete
inputs — variant A at `p = 2^36`, `a = 5 ≥ b = 3`, and variant B at the
prime `p = 75161927681` with a nonzero mask, `a = 1 ≥ b = 0`. -/
theorem claim_C1_witness :
    greater_than 68719476736 3 ((5 : Nat) : ZMod 68719476736)
        ((3 : Nat) : ZMod 68719476736) (List.replicate 34 false)
        (List.replicate 34 ([] : List Bool))
      = some (bitN (decide ((3 : Nat) ≤ 5))) ∧
    greater_thanII 75161927681 ((1 : Nat) : ZMod 75161927681)
        ((0 : Nat) : ZMod 75161927681) 1 (List.replicate 32 false) false
        [] 1 1
      = some (bitF 75161927681 (decide ((0 : Nat) ≤ 1))) :=
  ⟨claim_C1_amended.1 68719476736 3 5 3 (List.replicate 34 false)
      (List.replicate 34 ([] : List Bool)) (by norm_num) (by norm_num)
      (by norm_num) (by norm_num) (by simp) (by simp),
   claim_C1_amended.2 75161927681 1 1 0 (List.replicate 32 false) false
      [] 1 1 prime_75161927681 (by norm_num) (by norm_num) (by norm_num)
      (by simp) (by decide)⟩

/-- C1 counterexample: at the prime `p = 75161927681` (all field-size
preconditions hold) with valid inputs `a = 0`, `b = 1` and a zero mask
draw, `greater_thanII` opens to `1` although `a ≥ b` is false — the code
never retries a zero mask product, so the original unconditional claim for
variant B is wrong. -/
theorem claim_C1_counterexample :
    Nat.Prime 75161927681 ∧
    2 ^ (1 + 3) + 2 ^ (1 + 31) < 75161927681 ∧
    (0 : Nat) < 2 ^ 1 ∧ (1 : Nat) < 2 ^ 1 ∧
    (false :: true :: List.replicate 30 false).length = 1 + 31 ∧
    greater_thanII 75161927681 ((0 : Nat) : ZMod 75161927681)
        ((1 : Nat) : ZMod 75161927681) 1
        (false :: true :: List.replicate 30 false) false [] 0 0
      = some 1 ∧
    (1 : ZMod 75161927681) ≠ bitF 75161927681 (decide ((1 : Nat) ≤ 0)) :=
  ⟨prime_75161927681, by norm_num, by norm_num, by norm_num, by simp,
   by decide, by decide⟩

/-- C4: the opened mask product of `greater_thanII_preproc` is computed and
discarded — with a zero mask the preprocessing still completes (no retry,
no error), returning a tuple whose mask is `0`, contradicting the claimed
re-run-on-zero behavior; the claim describes the documented intent, so this
is a code bug. -/
theorem claim_C4_mask_unchecked :
    greater_thanII_mask_OK 8589934592 0 1 = 0 ∧
    (greater_thanII_preproc 8589934592 1 30 (List.replicate 32 false) false
        [] 0 1).isSome = true ∧
    Option.map (fun pre => pre.mask)
        (greater_thanII_preproc 8589934592 1 30 (List.replicate 32 false)
          false [] 0 1)
      = some 0 :=
  ⟨by decide, by decide, by decide⟩

/-- C7 (amended): `greater_thanII_preproc` fails (assertion) exactly when
the field bounds at the INCREMENTED bit-length `l0 + 1` are violated —
`p > 2^(l0+1+2) + 2^(l0+1+k)` and `p > 3 + 3*(l0+1)` — not at the
caller-supplied `l0` as claimed, and `greater_thanII` propagates the
failure. -/
theorem claim_C7_amended (p l0 k : Nat) (r_draws : List Bool) (sd : Bool)
    (cm : List Nat) (mask mask_2 : ZMod p) :
    (greater_thanII_preproc p l0 k r_draws sd cm mask mask_2 = none ↔
      ¬ (p > 2 ^ (l0 + 1 + 2) + 2 ^ (l0 + 1 + k) ∧ p > 3 + 3 * (l0 + 1))) ∧
    (∀ a b : ZMod p,
      greater_thanII_preproc p l0 30 r_draws sd cm mask mask_2 = none →
      greater_thanII p a b l0 r_draws sd cm mask mask_2 = none) := by
  constructor
  · simp only [greater_thanII_preproc]
    split_ifs with h
    · simp [h]
    · simp [h]
  · intro a b hnone
    rw [greater_thanII, hnone]

/-- C7 witness: at the prime `p = 3221225473` the preprocessing guard at
the incremented bit-length fails, and the online wrapper returns the
failure. -/
theorem claim_C7_witness :
    greater_thanII 3221225473 0 0 1 (List.replicate 32 false) false [] 1 1
      = none :=
  (claim_C7_amended 3221225473 1 30 (List.replicate 32 false) false [] 1
      1).2 0 0 (by decide)

/-- C7 counterexample: `p = 3221225473` is prime and satisfies both
field-size preconditions at the caller-supplied bit-length `l = 1`
(`p > 2^(1+2) + 2^(1+30)` and `p > 3 + 3*1`), yet the preprocessing raises
the assertion failure, because the code increments `l` before asserting —
the claim's preconditions are stated at the wrong bit-length. -/
theorem claim_C7_counterexample :
    Nat.Prime 3221225473 ∧
    2 ^ (1 + 2) + 2 ^ (1 + 30) < 3221225473 ∧
    3 + 3 * 1 < 3221225473 ∧
    greater_thanII_preproc 3221225473 1 30 (List.replicate 32 false) false
        [] 1 1
      = none :=
  ⟨prime_3221225473, by norm_num, by norm_num, by decide⟩
